import Mathlib

/-!
Verification of the scythe-database scan-and-resolve pipeline.

Shallow embedding of the Rust sources under `src-tauri/src/`:
  * `db.rs`     — catalog rows (`Asset`, `Dependency`, `Project`) and the
                  list-level semantics of the SQL operations;
  * `deps.rs`   — GUID extraction, relation-type inference, project-wide
                  resolve, and the depth-limited dependency-tree walk;
  * `scanner.rs`— the incremental batched file scan;
  * `indexer.rs`— the batch upsert, modelled at the granularity of
                  per-connection durability;
  * `commands.rs`/`state.rs` — the `start_scan` control flow;
  * `export.rs` — single-file export and bundle export over an explicit
                  file-system state.

Machine integers are modelled as `Int`/`Nat` (no arithmetic in the claims
overflows), SQL tables as Lean lists in rowid order, and fallible calls as
`Option`/`Except`.
-/

namespace Scythe

/-- Catalog row of the `assets` table (struct `Asset` in `db.rs`). -/
structure Asset where
  id : String
  project_id : String
  absolute_path : String
  relative_path : String
  file_name : String
  extension : String
  asset_type : String
  size_bytes : Int
  modified_time : Int
  content_hash : Option String
  unity_guid : Option String
  import_type : Option String
  thumbnail_path : Option String
  created_at : Int
  updated_at : Int
deriving DecidableEq, Repr

/-- Catalog row of the `dependencies` table (struct `Dependency` in `db.rs`). -/
structure Dependency where
  id : String
  from_asset_id : String
  to_asset_id : Option String
  to_guid : String
  relation_type : String
  confidence : String
  created_at : Int
deriving DecidableEq, Repr

/-- Catalog row of the `projects` table (struct `Project` in `db.rs`). -/
structure Project where
  id : String
  root_path : String
  name : String
  last_scan_time : Option Int
  file_count : Int
  created_at : Int
  updated_at : Int
deriving DecidableEq, Repr

/-- `Database::get_dependencies` (`db.rs`): all rows of `dependencies`
whose `from_asset_id` equals the given asset id, in rowid order. -/
def get_dependencies (table : List Dependency) (asset_id : String) : List Dependency :=
  table.filter (fun d => d.from_asset_id = asset_id)

/-- `Database::get_asset` (`db.rs`): `query_row` returns the first matching
row or none. -/
def get_asset (assets : List Asset) (id : String) : Option Asset :=
  assets.find? (fun a => a.id = id)

/-- `Database::get_asset_by_guid` (`db.rs`). -/
def get_asset_by_guid (assets : List Asset) (project_id guid : String) : Option Asset :=
  assets.find? (fun a => a.project_id = project_id ∧ a.unity_guid = some guid)

/-- The asset kinds parsed by the resolver: the SQL `IN` set of
`Database::get_parseable_assets` and the match arms at the top of
`DependencyResolver::resolve_dependencies_for_asset`. -/
def parseable_types : List String := ["material", "prefab", "scene", "scriptable_object"]

/-- `Database::get_parseable_assets` (`db.rs`). -/
def get_parseable_assets (assets : List Asset) (project_id : String) : List Asset :=
  assets.filter (fun a => a.project_id = project_id ∧ a.asset_type ∈ parseable_types)

/-- `Database::delete_dependencies_for_asset` (`db.rs`):
`DELETE FROM dependencies WHERE from_asset_id = ?1`. -/
def delete_dependencies_for_asset (table : List Dependency) (asset_id : String) :
    List Dependency :=
  table.filter (fun d => ¬ d.from_asset_id = asset_id)

/-- `Database::insert_dependency` (`db.rs`): `INSERT OR REPLACE` deletes any
row with the same primary key `id` and appends the new row. -/
def insert_dependency (table : List Dependency) (dep : Dependency) : List Dependency :=
  table.filter (fun e => ¬ e.id = dep.id) ++ [dep]

/-! ## The dependency-tree walk (`deps.rs`, `collect_dependencies`)

The Rust function recurses with arguments `(depth, max_depth)` and guard
`depth >= max_depth`; the embedding carries the single quantity
`fuel = max_depth - depth`, with guard `fuel = 0`.  The body of the Rust
`for dep in deps` loop is `collect_deps_list`, abstracted over the
recursive call so that the recursion on `fuel` stays structural. -/

/-- The `for dep in deps` loop of `DependencyResolver::collect_dependencies`:
for each resolved target not yet visited, push it into `result` and recurse
(via `recurse`, the call at `depth + 1`). -/
def collect_deps_list (recurse : String → List String → List String → List String × List String) :
    List Dependency → List String → List String → List String × List String
  | [], visited, result => (visited, result)
  | dep :: rest, visited, result =>
    match dep.to_asset_id with
    | none => collect_deps_list recurse rest visited result
    | some to_id =>
      if visited.contains to_id then
        collect_deps_list recurse rest visited result
      else
        let vr := recurse to_id visited (result ++ [to_id])
        collect_deps_list recurse rest vr.1 vr.2

/-- `DependencyResolver::collect_dependencies` (`deps.rs`): depth-limited
walk over resolved edges with a visited list; `fuel = max_depth - depth`. -/
def collect_dependencies (table : List Dependency) :
    Nat → String → List String → List String → List String × List String
  | 0, _, visited, result => (visited, result)
  | Nat.succ fuel, asset_id, visited, result =>
    if visited.contains asset_id then (visited, result)
    else
      collect_deps_list (fun a v r => collect_dependencies table fuel a v r)
        (get_dependencies table asset_id) (asset_id :: visited) result

/-- `DependencyResolver::get_dependency_tree` (`deps.rs`). -/
def get_dependency_tree (table : List Dependency) (asset_id : String) (max_depth : Nat) :
    List String :=
  (collect_dependencies table max_depth asset_id [] []).2

/-- Shorthand for an edge row as produced by the resolver (only the fields
the tree walk consults matter for the walk; the rest are fixed). -/
def edgeRow (id from_id to_id : String) : Dependency :=
  { id := id, from_asset_id := from_id, to_asset_id := some to_id, to_guid := ""
    relation_type := "reference", confidence := "high", created_at := 0 }

/-- Diamond graph `r → a → c`, `r → b → c`: at depth bound 2 the node `c`
is first reached at the bound, is never marked visited, and is pushed
twice. -/
def diamondTable : List Dependency :=
  [edgeRow "e1" "r" "a", edgeRow "e2" "r" "b", edgeRow "e3" "a" "c", edgeRow "e4" "b" "c"]

/-- Graph `r → a, r → q, a → b, b → q, q → p, p → c`: at depth bound 4 the
first branch expands `q` at depth 3 with fuel 1, so `p` is the frontier and
`c` is never discovered, while at bound 3 the second root edge re-expands
`q` with fuel 2 and reaches `c`. -/
def nonmonoTable : List Dependency :=
  [edgeRow "e1" "r" "a", edgeRow "e2" "r" "q", edgeRow "e3" "a" "b",
   edgeRow "e4" "b" "q", edgeRow "e5" "q" "p", edgeRow "e6" "p" "c"]

/-! ## GUID extraction (`deps.rs`, regex `guid:\s*([a-f0-9]{32})`)

The regex engine is embedded as a direct character scanner with the same
semantics on this pattern: leftmost, non-overlapping matches; the classes
`\s` and `[a-f0-9]` are disjoint, so the greedy `\s*` never backtracks. -/

/-- The character class `[a-f0-9]`. -/
def is_guid_hex (c : Char) : Bool := ('a' ≤ c ∧ c ≤ 'f') ∨ ('0' ≤ c ∧ c ≤ '9')

/-- The regex class `\s` (ASCII part: space, tab, newline, vertical tab,
form feed, carriage return). -/
def is_regex_ws (c : Char) : Bool :=
  c = ' ' ∨ c = '\t' ∨ c = '\n' ∨ c = '\x0b' ∨ c = '\x0c' ∨ c = '\r'

/-- Match the literal `guid:` at the head of the input. -/
def strip_guid_colon : List Char → Option (List Char)
  | 'g' :: 'u' :: 'i' :: 'd' :: ':' :: rest => some rest
  | _ => none

/-- Drop the (maximal) run of `\s` characters. -/
def drop_ws : List Char → List Char
  | [] => []
  | c :: rest => if is_regex_ws c then drop_ws rest else c :: rest

/-- Take exactly `n` characters of class `[a-f0-9]`, returning them and the
rest of the input; `none` when fewer are available. -/
def take_hex : Nat → List Char → Option (List Char × List Char)
  | 0, l => some ([], l)
  | _ + 1, [] => none
  | n + 1, c :: rest =>
    if is_guid_hex c then (take_hex n rest).map (fun p => (c :: p.1, p.2)) else none

/-- Try to match `guid:\s*([a-f0-9]{32})` at the head of the input; on
success return the captured 32 hex characters and the input after the
match. -/
def try_match_guid (l : List Char) : Option (String × List Char) :=
  match strip_guid_colon l with
  | none => none
  | some l1 =>
    match take_hex 32 (drop_ws l1) with
    | none => none
    | some (cs, l2) => some (String.mk cs, l2)

/-- `captures_iter`: scan left to right, at each position try the pattern;
on a match continue after it, else advance one character.  `fuel` bounds
the number of steps; each step consumes at least one character, so the
input length is enough fuel. -/
def scan_guids : Nat → List Char → List String
  | 0, _ => []
  | _ + 1, [] => []
  | fuel + 1, c :: rest =>
    match try_match_guid (c :: rest) with
    | some (g, after) => g :: scan_guids fuel after
    | none => scan_guids fuel rest

/-- `DependencyResolver::extract_guids` (`deps.rs`): all captures, collected
through a `HashSet`.  The set's iteration order is arbitrary in Rust; the
embedding keeps first-occurrence order, and every claim about the result is
order-insensitive. -/
def extract_guids (content : String) : List String :=
  (scan_guids content.length content.data).dedup

/-! ## Relation types and the resolver (`deps.rs`) -/

/-- The `to_type` binding of `DependencyResolver::infer_relation_type`:
the resolved asset's `asset_type`, or `"unknown"` when unresolved. -/
def target_type (to_asset : Option Asset) : String :=
  match to_asset with
  | some a => a.asset_type
  | none => "unknown"

/-- `DependencyResolver::infer_relation_type` (`deps.rs`). -/
def infer_relation_type (from_type : String) (to_asset : Option Asset) : String :=
  match from_type, target_type to_asset with
  | "material", "texture" => "material_texture"
  | "material", "shader" => "material_shader"
  | "prefab", "material" => "prefab_material"
  | "prefab", "model" => "prefab_model"
  | "prefab", "prefab" => "prefab_prefab"
  | "prefab", "texture" => "prefab_texture"
  | "scene", "prefab" => "scene_prefab"
  | "scene", "material" => "scene_material"
  | "scene", _ => "scene_reference"
  | _, _ => "reference"

/-- The `for guid in guids` loop of
`DependencyResolver::resolve_dependencies_for_asset`: skip the asset's own
GUID, resolve each remaining GUID in the same project, and build one
`Dependency` row per kept GUID.  `uuid::Uuid::new_v4` is modelled by the
id supply `uid` at successive indices starting from `k`. -/
def build_deps (assets : List Asset) (uid : Nat → String) (now : Int) (asset : Asset) :
    List String → Nat → List Dependency
  | [], _ => []
  | guid :: rest, k =>
    if asset.unity_guid = some guid then build_deps assets uid now asset rest k
    else
      let to_asset := get_asset_by_guid assets asset.project_id guid
      { id := uid k, from_asset_id := asset.id,
        to_asset_id := to_asset.map (fun a => a.id), to_guid := guid,
        relation_type := infer_relation_type asset.asset_type to_asset,
        confidence := "high", created_at := now }
        :: build_deps assets uid now asset rest (k + 1)

/-- `DependencyResolver::resolve_dependencies_for_asset` (`deps.rs`).
`fs_read` is `fs::read_to_string` (`none` covers both I/O and encoding
failures, which the code treats alike); `base` is the index of the next
fresh dependency id. -/
def resolve_dependencies_for_asset (fs_read : String → Option String) (assets : List Asset)
    (uid : Nat → String) (now : Int) (base : Nat) (asset : Asset) : List Dependency :=
  if asset.asset_type ∈ parseable_types then
    match fs_read asset.absolute_path with
    | none => []
    | some content => build_deps assets uid now asset (extract_guids content) base
  else []

/-- One iteration of the `for asset in assets` loop of
`DependencyResolver::resolve_all_for_project`: clear the asset's edges,
recompute them, and insert each fresh edge.  The counter doubles as the
fresh-id base and the running `total_deps`. -/
def resolve_asset_step (fs_read : String → Option String) (assets : List Asset)
    (uid : Nat → String) (now : Int) (st : List Dependency × Nat) (a : Asset) :
    List Dependency × Nat :=
  let cleared := delete_dependencies_for_asset st.1 a.id
  let fresh := resolve_dependencies_for_asset fs_read assets uid now st.2 a
  (fresh.foldl insert_dependency cleared, st.2 + fresh.length)

/-- `DependencyResolver::resolve_all_for_project` (`deps.rs`): iterate the
parseable assets of the project over the dependencies table; returns the
new table and `total_deps`. -/
def resolve_all_for_project (fs_read : String → Option String) (assets : List Asset)
    (deps : List Dependency) (uid : Nat → String) (now : Int) (project_id : String) :
    List Dependency × Nat :=
  (get_parseable_assets assets project_id).foldl
    (resolve_asset_step fs_read assets uid now) (deps, 0)

/-! ## The incremental batched scan (`scanner.rs`, `scan_files_batch`)

The `jwalk` traversal is modelled as a list of `WalkItem`s: everything the
loop body observes about one directory entry.  The cancel flag is an atomic
set by another thread; its value at the k-th poll is the function
`cancel k`.  The callback is `FnMut`; the value returned by its k-th
invocation is `cb k`.  `uuid::Uuid::new_v4` is the supply `uid`. -/

/-- `ScanStats` (`scanner.rs`). -/
structure ScanStats where
  total_files : Nat
  unchanged_skipped : Nat
  new_or_changed : Nat
deriving DecidableEq, Repr

/-- What the `scan_files_batch` loop body observes about one walk entry. -/
structure WalkItem where
  is_ok : Bool
  is_file : Bool
  abs_path : String
  rel_path : String
  file_name : String
  ext : Option String
  metadata : Option (Int × Int)
  meta_guid : Option String
deriving DecidableEq, Repr

/-- ASCII lowercasing of one character (`to_lowercase` in Rust; every
recognised extension is ASCII, so the ASCII case suffices). -/
def lower_char (c : Char) : Char :=
  if 'A' ≤ c ∧ c ≤ 'Z' then Char.ofNat (c.toNat + 32) else c

/-- ASCII lowercasing of a string. -/
def lower_string (s : String) : String := String.mk (s.data.map lower_char)

/-- `classify_file` (`scanner.rs`): pure extension-to-kind map on the
lowercased extension (missing extension classifies as `""`). -/
def classify_file (ext : Option String) : String :=
  match (ext.map lower_string).getD "" with
  | "png" | "jpg" | "jpeg" | "tga" | "psd" | "bmp" | "gif" | "exr" | "hdr" => "texture"
  | "fbx" | "obj" | "blend" | "dae" | "gltf" | "glb" | "3ds" | "max" => "model"
  | "mat" => "material"
  | "prefab" => "prefab"
  | "wav" | "mp3" | "ogg" | "aiff" | "aif" | "flac" => "audio"
  | "shader" | "shadergraph" | "shadersubgraph" | "compute" | "cginc" | "hlsl" | "glsl" =>
    "shader"
  | "unity" => "scene"
  | "asset" => "scriptable_object"
  | "anim" | "controller" | "overrideController" => "unknown"
  | "cs" | "js" | "boo" => "unknown"
  | _ => "unknown"

/-- `ExistingAssetMap` lookup: `relative_path → (asset_id, modified_time,
size_bytes)`; the `HashMap` has unique keys, modelled as first match. -/
def existing_lookup (m : List (String × String × Int × Int)) (rel : String) :
    Option (String × Int × Int) :=
  match m.find? (fun e => e.1 = rel) with
  | none => none
  | some e => some e.2

/-- The inputs of one `scan_files_batch` run that stay fixed across the
loop. -/
structure ScanEnv where
  project_id : String
  now : Int
  batch_size : Nat
  uid : Nat → String
  cancel : Nat → Bool
  cb : Nat → Bool
  existing : Option (List (String × String × Int × Int))

/-- The mutable state of the `scan_files_batch` loop.  `calls` is the
observable trace of callback invocations `(batch, total_count,
current_path)`. -/
structure ScanState where
  step : Nat
  cb_calls : Nat
  fresh : Nat
  batch : List Asset
  total_count : Nat
  stats : ScanStats
  calls : List (List Asset × Nat × String)
deriving Repr

/-- The `Asset` record built for one new-or-changed file
(`scanner.rs`, lines building `Asset` inside `scan_files_batch`).  Note the
stored `extension` is the raw extension; only classification lowercases. -/
def scanned_asset (env : ScanEnv) (e : WalkItem) (size_bytes modified_time : Int)
    (aid : String) : Asset :=
  { id := aid, project_id := env.project_id, absolute_path := e.abs_path,
    relative_path := e.rel_path, file_name := e.file_name,
    extension := e.ext.getD "", asset_type := classify_file e.ext,
    size_bytes := size_bytes, modified_time := modified_time,
    content_hash := none, unity_guid := e.meta_guid,
    import_type := none, thumbnail_path := none,
    created_at := env.now, updated_at := env.now }

/-- Result of one loop iteration: continue with a new state, or return from
`scan_files_batch` with `(total_count, stats)` and the call trace. -/
inductive StepRes where
  | next (st : ScanState)
  | stop (out : Nat × ScanStats × List (List Asset × Nat × String))
deriving Repr

/-- `batch.push(asset)` followed by the batch-full check: when the batch
reaches `batch_size`, invoke the callback; a `false` return stops the walk
with the current totals. -/
def push_asset (env : ScanEnv) (st : ScanState) (a : Asset) (rel : String) : StepRes :=
  let batch := st.batch ++ [a]
  let total := st.total_count + 1
  if env.batch_size ≤ batch.length then
    let calls := st.calls ++ [(batch, total, rel)]
    if env.cb st.cb_calls then
      .next { st with
              batch := []
              total_count := total
              calls := calls
              cb_calls := st.cb_calls + 1 }
    else
      .stop (total, st.stats, calls)
  else
    .next { st with batch := batch, total_count := total }

/-- The body of the `for entry in WalkDir` loop of `scan_files_batch`:
cancel poll, entry filters, metadata read, unchanged-file check, asset
construction, batch push. -/
def scan_step (env : ScanEnv) (e : WalkItem) (st : ScanState) : StepRes :=
  if env.cancel st.step then .stop (st.total_count, st.stats, st.calls)
  else
    let st := { st with step := st.step + 1 }
    if ¬ e.is_ok then .next st
    else if ¬ e.is_file then .next st
    else if e.ext = some "meta" then .next st
    else if classify_file e.ext = "unknown" then .next st
    else
      match e.metadata with
      | none => .next st
      | some (size_bytes, modified_time) =>
        let st := { st with
          stats := { st.stats with total_files := st.stats.total_files + 1 } }
        let entry := match env.existing with
          | some m => existing_lookup m e.rel_path
          | none => none
        match entry with
        | some (ex_id, ex_mtime, ex_size) =>
          if ex_mtime = modified_time ∧ ex_size = size_bytes then
            .next { st with
              stats := { st.stats with
                unchanged_skipped := st.stats.unchanged_skipped + 1 } }
          else
            push_asset env
              { st with
                stats := { st.stats with
                  new_or_changed := st.stats.new_or_changed + 1 } }
              (scanned_asset env e size_bytes modified_time ex_id) e.rel_path
        | none =>
          push_asset env
            { st with
              fresh := st.fresh + 1
              stats := { st.stats with
                new_or_changed := st.stats.new_or_changed + 1 } }
            (scanned_asset env e size_bytes modified_time (env.uid st.fresh)) e.rel_path

/-- After the walk: send the remaining partial batch, then return. -/
def scan_finish (st : ScanState) : Nat × ScanStats × List (List Asset × Nat × String) :=
  if st.batch.isEmpty then (st.total_count, st.stats, st.calls)
  else (st.total_count, st.stats, st.calls ++ [(st.batch, st.total_count, "")])

/-- The `for entry in WalkDir` loop of `scan_files_batch`. -/
def scan_loop (env : ScanEnv) : List WalkItem → ScanState →
    Nat × ScanStats × List (List Asset × Nat × String)
  | [], st => scan_finish st
  | e :: rest, st =>
    match scan_step env e st with
    | .stop out => out
    | .next st' => scan_loop env rest st'

/-- Initial loop state of `scan_files_batch`. -/
def init_scan_state : ScanState :=
  { step := 0, cb_calls := 0, fresh := 0, batch := [], total_count := 0,
    stats := { total_files := 0, unchanged_skipped := 0, new_or_changed := 0 },
    calls := [] }

/-- `scan_files_batch` (`scanner.rs`): the `is_valid_folder` guard, then
the walk. -/
def scan_files_batch (root_valid : Bool) (env : ScanEnv) (entries : List WalkItem) :
    Except Unit (Nat × ScanStats × List (List Asset × Nat × String)) :=
  if root_valid then .ok (scan_loop env entries init_scan_state) else .error ()

/-! ## The batch upsert (`db.rs` `upsert_asset`, `indexer.rs` `upsert_batch`)

`Indexer::upsert_batch` checks one connection `conn` out of the pool and
runs `BEGIN TRANSACTION` / `COMMIT` on it, but every `Database::upsert_asset`
call draws its own, different pooled connection (`conn` is still checked
out) and therefore executes in autocommit mode.  Consequently the
transaction on `conn` encloses no row statement, and each successful row is
durable the moment its own statement finishes.  `upsert_batch` is embedded
at that granularity: it returns the list of durable `assets`-table states
observed after each per-row statement, together with the table at `COMMIT`
time and the returned row count. -/

/-- The `DO UPDATE SET` arm of the upsert in `Database::upsert_asset`: all
mutable columns are overwritten; `id`, `project_id`, `relative_path` and
`created_at` are kept from the existing row. -/
def apply_upsert_update (r a : Asset) : Asset :=
  { r with
    absolute_path := a.absolute_path
    file_name := a.file_name
    extension := a.extension
    asset_type := a.asset_type
    size_bytes := a.size_bytes
    modified_time := a.modified_time
    content_hash := a.content_hash
    unity_guid := a.unity_guid
    import_type := a.import_type
    thumbnail_path := a.thumbnail_path
    updated_at := a.updated_at }

/-- `Database::upsert_asset` (`db.rs`): `INSERT ... ON CONFLICT(project_id,
relative_path) DO UPDATE`.  A conflict on the unhandled primary key `id`
raises, which is the per-row failure `upsert_batch` logs and skips. -/
def upsert_asset (tbl : List Asset) (a : Asset) : Except Unit (List Asset) :=
  if tbl.any (fun r => r.project_id = a.project_id ∧ r.relative_path = a.relative_path) then
    .ok (tbl.map (fun r =>
      if r.project_id = a.project_id ∧ r.relative_path = a.relative_path then
        apply_upsert_update r a
      else r))
  else if tbl.any (fun r => r.id = a.id) then .error ()
  else .ok (tbl ++ [a])

/-- The row loop of `Indexer::upsert_batch`: per-row failures are logged
and skipped; each successful row's statement runs on its own autocommit
connection, so its table state is immediately durable.  Returns (durable
states after each row, final table, count of successful rows). -/
def upsert_batch_rows : List Asset → List Asset → List (List Asset) × List Asset × Nat
  | tbl, [] => ([], tbl, 0)
  | tbl, a :: rest =>
    match upsert_asset tbl a with
    | .error _ =>
      let r := upsert_batch_rows tbl rest
      (tbl :: r.1, r.2.1, r.2.2)
    | .ok tbl' =>
      let r := upsert_batch_rows tbl' rest
      (tbl' :: r.1, r.2.1, r.2.2 + 1)

/-- `Indexer::upsert_batch` (`indexer.rs`).  The `BEGIN TRANSACTION` and
`COMMIT` on the held connection enclose no row statement, so they do not
alter any durable state; `.2.1` is the durable table when `COMMIT` runs. -/
def upsert_batch (tbl : List Asset) (batch : List Asset) :
    List (List Asset) × List Asset × Nat :=
  upsert_batch_rows tbl batch

/-! ## `start_scan` and the running flag (`commands.rs`, `state.rs`)

`AppState` (`state.rs`) carries `cancel_flag` and `scan_running`;
`set_scan_running` and `is_scan_running` are defined but have no call site
anywhere in the crate.  The embedding models the flag-relevant control flow
of the `start_scan` command: reset the cancel flag, look up the project,
and unconditionally dispatch the background scan job. -/

/-- The two atomic booleans of `AppState` (`state.rs`). -/
structure ScanFlags where
  cancel_flag : Bool
  scan_running : Bool
deriving DecidableEq, Repr

/-- The synchronous part of the `start_scan` command (`commands.rs`):
returns the flag state after the call, whether the command returned `Ok`,
and whether a background scan job was dispatched
(`tokio::task::spawn_blocking`). -/
def start_scan (st : ScanFlags) (project_found : Bool) : ScanFlags × Bool × Bool :=
  let st1 := { st with cancel_flag := false }
  if project_found then (st1, true, true) else (st1, false, false)

/-! ## The exporter (`export.rs`)

The file system is an explicit list of existing paths.  `fs::copy`
creates the destination (sources are checked at every call site before
copying), `fs::write` creates the manifest file, and `create_dir_all`
has no observable effect on the path set. -/

/-- `ExportResult` (`export.rs`). -/
structure ExportResult where
  success : Bool
  exported_files : List String
  manifest_path : Option String
  error : Option String
deriving DecidableEq, Repr

/-- `ExportedAsset` (`export.rs`). -/
structure ExportedAsset where
  relative_path : String
  asset_type : String
  unity_guid : Option String
deriving DecidableEq, Repr

/-- `DependencyEdge` (`export.rs`); the Rust fields `from`/`to` are Lean
keywords and are embedded as `from_rel`/`to_rel`. -/
structure DependencyEdge where
  from_rel : String
  to_rel : String
  relation_type : String
deriving DecidableEq, Repr

/-- `ExportManifest` (`export.rs`). -/
structure ExportManifest where
  version : String
  exported_at : String
  source_project : String
  root_asset : String
  assets : List ExportedAsset
  dependency_graph : List DependencyEdge
deriving DecidableEq, Repr

/-- `Path::join` with a relative component. -/
def path_join (dir rel : String) : String := dir ++ "/" ++ rel

/-- The sidecar path `format!("{}.meta", path)`. -/
def meta_path (p : String) : String := p ++ ".meta"

/-- `fs::copy src dst` (src exists at every call site): dst now exists. -/
def fs_copy (fs : List String) (_src dst : String) : List String := dst :: fs

/-- `Exporter::export_file` (`export.rs`): missing source returns a failed
`ExportResult` before any copy; otherwise copy the file and, when present,
its sidecar. -/
def export_file (fs : List String) (asset : Asset) (dest_folder : String) :
    ExportResult × List String :=
  if asset.absolute_path ∈ fs then
    let dest_path := path_join dest_folder asset.relative_path
    let fs1 := fs_copy fs asset.absolute_path dest_path
    let fs2 :=
      if meta_path asset.absolute_path ∈ fs1 then
        fs_copy fs1 (meta_path asset.absolute_path) (meta_path dest_path)
      else fs1
    ({ success := true, exported_files := [asset.relative_path], manifest_path := none,
       error := none }, fs2)
  else
    ({ success := false, exported_files := [], manifest_path := none,
       error := some ("Source file not found: " ++ asset.absolute_path) }, fs)

/-- The `for export_asset in assets_to_export` copy loop of
`Exporter::export_bundle`: state is `(exported_files, exported_paths,
file system)`; missing sources are skipped with a warning, duplicate
relative paths are skipped, sidecar copies are attempted when present. -/
def export_loop (dest_folder : String) : List Asset →
    List String × List String × List String → List String × List String × List String
  | [], st => st
  | ea :: rest, (files, paths, fs) =>
    if ea.absolute_path ∈ fs then
      if ea.relative_path ∈ paths then export_loop dest_folder rest (files, paths, fs)
      else
        let dest_path := path_join dest_folder ea.relative_path
        let fs1 := fs_copy fs ea.absolute_path dest_path
        let fs2 :=
          if meta_path ea.absolute_path ∈ fs1 then
            fs_copy fs1 (meta_path ea.absolute_path) (meta_path dest_path)
          else fs1
        export_loop dest_folder rest
          (files ++ [ea.relative_path], paths ++ [ea.relative_path], fs2)
    else export_loop dest_folder rest (files, paths, fs)

/-- `Path::parent` on a forward-slash path. -/
def parent_path (p : String) : Option String :=
  let parts := p.splitOn "/"
  if parts.length ≤ 1 then none
  else some (String.intercalate "/" parts.dropLast)

/-- The `while !current.join("Assets").exists()` walk towards the root in
`Exporter::export_bundle`; the fuel is the number of path components, which
bounds the number of `parent` steps. -/
def find_project_root (fs : List String) : Nat → String → Option String
  | 0, _ => none
  | n + 1, cur =>
    if (cur ++ "/Assets") ∈ fs then some cur
    else
      match parent_path cur with
      | none => none
      | some par => find_project_root fs n par

/-- `Database::get_project_by_path` (`db.rs`). -/
def get_project_by_path (projects : List Project) (root : String) : Option Project :=
  projects.find? (fun p => p.root_path = root)

/-- The manifest's `source_project` computation in
`Exporter::export_bundle`. -/
def bundle_project_name (fs : List String) (projects : List Project) (asset : Asset) :
    String :=
  let root := match parent_path asset.absolute_path with
    | none => none
    | some p => find_project_root fs (p.splitOn "/").length p
  match get_project_by_path projects (root.getD "") with
  | some p => p.name
  | none => "Unknown"

/-- The manifest edge computation of `Exporter::export_bundle`: for each
candidate asset, its resolved edges whose target was exported. -/
def bundle_edges (assets : List Asset) (deps : List Dependency)
    (exported_paths : List String) (to_export : List Asset) : List DependencyEdge :=
  (to_export.map (fun ea =>
    (get_dependencies deps ea.id).filterMap (fun dep =>
      match dep.to_asset_id with
      | none => none
      | some tid =>
        match get_asset assets tid with
        | none => none
        | some ta =>
          if ta.relative_path ∈ exported_paths then
            some { from_rel := ea.relative_path, to_rel := ta.relative_path,
                   relation_type := dep.relation_type }
          else none))).flatten

/-- `Exporter::export_bundle` (`export.rs`): tree walk, copy loop, edge
restriction, manifest write.  `now_str` is the RFC 3339 timestamp.
Returns the result, the manifest value written, and the file system after
the run. -/
def export_bundle (fs : List String) (assets : List Asset) (deps : List Dependency)
    (projects : List Project) (now_str : String) (asset : Asset) (dest_folder : String)
    (max_depth : Nat) : ExportResult × ExportManifest × List String :=
  let dep_ids := get_dependency_tree deps asset.id max_depth
  let to_export := asset :: dep_ids.filterMap (fun i => get_asset assets i)
  let st := export_loop dest_folder to_export ([], [], fs)
  let files := st.1
  let paths := st.2.1
  let fs1 := st.2.2
  let manifest : ExportManifest :=
    { version := "1.0", exported_at := now_str,
      source_project := bundle_project_name fs1 projects asset,
      root_asset := asset.relative_path,
      assets := to_export.filterMap (fun a =>
        if a.relative_path ∈ paths then
          some { relative_path := a.relative_path, asset_type := a.asset_type,
                 unity_guid := a.unity_guid }
        else none),
      dependency_graph := bundle_edges assets deps paths to_export }
  let manifest_file := path_join dest_folder "manifest.json"
  ({ success := true, exported_files := files, manifest_path := some manifest_file,
     error := none }, manifest, manifest_file :: fs1)

/-! ## Shared sample data for concrete instantiations -/

/-- A 32-hex guid used by concrete resolver runs. -/
def c2guid : String := "aaaaaaaaaaaaaaaaaaaaaaaaaaaaaaaa"

/-- Material file content referencing `c2guid`. -/
def c2content : String := "guid: aaaaaaaaaaaaaaaaaaaaaaaaaaaaaaaa"

/-- An asset row with the fields relevant to the claims; the remaining
columns are zeroed. -/
def sampleAsset (id project_id relative_path absolute_path asset_type : String)
    (unity_guid : Option String) : Asset :=
  { id := id, project_id := project_id, absolute_path := absolute_path,
    relative_path := relative_path, file_name := "", extension := "",
    asset_type := asset_type, size_bytes := 0, modified_time := 0,
    content_hash := none, unity_guid := unity_guid,
    import_type := none, thumbnail_path := none, created_at := 0, updated_at := 0 }

/-- Material row whose file references `c2guid` and whose own guid
differs. -/
def matAsset : Asset :=
  sampleAsset "m" "p" "m.mat" "/p/m.mat" "material"
    (some "bbbbbbbbbbbbbbbbbbbbbbbbbbbbbbbb")

/-- Texture row carrying `c2guid`. -/
def texAsset : Asset := sampleAsset "t" "p" "t.png" "/p/t.png" "texture" (some c2guid)

/-- Two-asset catalog for the concrete resolver run. -/
def c2assets : List Asset := [matAsset, texAsset]

/-- File-system read for the concrete resolver run: only the material file
is readable. -/
def c2fs : String → Option String :=
  fun p => if p = "/p/m.mat" then some c2content else none

/-- Injective id supply for the concrete resolver run. -/
def c2uid : Nat → String := fun n => String.mk (List.replicate n 'i')

/-- Texture row used by the C1 failing input. -/
def c1RowOne : Asset := sampleAsset "id1" "p" "x.png" "/p/x.png" "texture" none

/-- Second texture row used by the C1 failing input. -/
def c1RowTwo : Asset := sampleAsset "id2" "p" "y.png" "/p/y.png" "texture" none

/-- The stats carried by a step outcome: the new state's stats, or the
stats returned from the function. -/
def step_stats : StepRes → ScanStats
  | .next st => st.stats
  | .stop out => out.2.1

/-- Environment used by the concrete scanner instantiations: fresh ids
`u0, u1, ...`, never cancelled, callback always continues, no existing
map. -/
def plainScanEnv : ScanEnv :=
  { project_id := "p", now := 3, batch_size := 25,
    uid := fun n => "u" ++ toString n,
    cancel := fun _ => false, cb := fun _ => true, existing := none }

/-- A well-formed texture entry with an uppercase extension. -/
def upperPngEntry : WalkItem :=
  { is_ok := true, is_file := true, abs_path := "/p/T.PNG", rel_path := "T.PNG",
    file_name := "T.PNG", ext := some "PNG", metadata := some (5, 7), meta_guid := none }

/-- Existing map with a stale entry for `T.PNG`: stored mtime 1 differs
from the on-disk mtime 7. -/
def staleMapEnv : ScanEnv :=
  { plainScanEnv with existing := some [("T.PNG", "old-id", 1, 5)] }

/-- Provenance of an emitted asset: it was built by `scanned_asset` from a
walk entry whose metadata read succeeded. -/
def asset_from (env : ScanEnv) (e : WalkItem) (a : Asset) : Prop :=
  ∃ sz mt id, e.metadata = some (sz, mt) ∧ a = scanned_asset env e sz mt id

/-- The root id together with every resolved target in the table: the walk
can visit nothing else. -/
def tree_nodes (table : List Dependency) (root : String) : List String :=
  (root :: table.filterMap (fun d => d.to_asset_id)).dedup

/-- Asset whose source file `zzz` does not exist. -/
def ghostAsset : Asset := sampleAsset "a1" "p" "f.png" "zzz" "texture" none

/-- State invariant of the resolve-all fold: every row id is either a
pre-existing id or a supply id below the counter. -/
def ids_ok (deps0 : List Dependency) (uid : Nat → String)
    (st : List Dependency × Nat) : Prop :=
  ∀ d ∈ st.1, d.id ∈ deps0.map (fun e => e.id) ∨ ∃ m, m < st.2 ∧ d.id = uid m

/-! ## Theorems -/

/-- Every dependency row built by the `for guid in guids` loop has
confidence `"high"`. -/
theorem build_deps_confidence (assets : List Asset) (uid : Nat → String) (now : Int)
    (asset : Asset) : ∀ guids k, ∀ d ∈ build_deps assets uid now asset guids k,
    d.confidence = "high" := by
  intro guids
  induction guids with
  | nil => intro k d hd; simp [build_deps] at hd
  | cons g rest ih =>
    intro k d hd
    by_cases hown : asset.unity_guid = some g
    · rw [build_deps, if_pos hown] at hd
      exact ih k d hd
    · rw [build_deps, if_neg hown] at hd
      rcases List.mem_cons.mp hd with h | h
      · subst h; rfl
      · exact ih (k + 1) d h

/-- Claim C7: the relation-type computation follows the spec's table
exactly, an unresolved target counts as kind `"unknown"`, every other pair
falls to `reference` (with `scene → anything else` falling to
`scene_reference`), and every edge the resolver emits carries confidence
`"high"`. -/
theorem infer_relation_type_matches_table :
    (∀ o : Option Asset, target_type o = "texture" →
      infer_relation_type "material" o = "material_texture") ∧
    (∀ o : Option Asset, target_type o = "shader" →
      infer_relation_type "material" o = "material_shader") ∧
    (∀ o : Option Asset, target_type o = "material" →
      infer_relation_type "prefab" o = "prefab_material") ∧
    (∀ o : Option Asset, target_type o = "model" →
      infer_relation_type "prefab" o = "prefab_model") ∧
    (∀ o : Option Asset, target_type o = "prefab" →
      infer_relation_type "prefab" o = "prefab_prefab") ∧
    (∀ o : Option Asset, target_type o = "texture" →
      infer_relation_type "prefab" o = "prefab_texture") ∧
    (∀ o : Option Asset, target_type o = "prefab" →
      infer_relation_type "scene" o = "scene_prefab") ∧
    (∀ o : Option Asset, target_type o = "material" →
      infer_relation_type "scene" o = "scene_material") ∧
    (∀ o : Option Asset, target_type o ≠ "prefab" → target_type o ≠ "material" →
      infer_relation_type "scene" o = "scene_reference") ∧
    (∀ o : Option Asset, target_type o ≠ "texture" → target_type o ≠ "shader" →
      infer_relation_type "material" o = "reference") ∧
    (∀ o : Option Asset, target_type o ≠ "material" → target_type o ≠ "model" →
      target_type o ≠ "prefab" → target_type o ≠ "texture" →
      infer_relation_type "prefab" o = "reference") ∧
    (∀ (s : String) (o : Option Asset), s ≠ "material" → s ≠ "prefab" → s ≠ "scene" →
      infer_relation_type s o = "reference") ∧
    (target_type none = "unknown") ∧
    (∀ fs_read assets uid now base asset,
      ∀ d ∈ resolve_dependencies_for_asset fs_read assets uid now base asset,
        d.confidence = "high") := by
  refine ⟨?_, ?_, ?_, ?_, ?_, ?_, ?_, ?_, ?_, ?_, ?_, ?_, rfl, ?_⟩
  · intro o h; unfold infer_relation_type; rw [h]; rfl
  · intro o h; unfold infer_relation_type; rw [h]; rfl
  · intro o h; unfold infer_relation_type; rw [h]; rfl
  · intro o h; unfold infer_relation_type; rw [h]; rfl
  · intro o h; unfold infer_relation_type; rw [h]; rfl
  · intro o h; unfold infer_relation_type; rw [h]; rfl
  · intro o h; unfold infer_relation_type; rw [h]; rfl
  · intro o h; unfold infer_relation_type; rw [h]; rfl
  · intro o h1 h2; unfold infer_relation_type; split <;> simp_all
  · intro o h1 h2; unfold infer_relation_type; split <;> simp_all
  · intro o h1 h2 h3 h4; unfold infer_relation_type; split <;> simp_all
  · intro s o h1 h2 h3; unfold infer_relation_type; split <;> simp_all
  · intro fs_read assets uid now base asset d hd
    unfold resolve_dependencies_for_asset at hd
    split at hd
    · split at hd
      · simp at hd
      · exact build_deps_confidence assets uid now asset _ base d hd
    · simp at hd

/-- Witness for C7 at a concrete input: a material source and a resolved
texture target. -/
theorem infer_relation_type_matches_table_witness :
    target_type (some (sampleAsset "t" "p" "a.png" "/p/a.png" "texture" none)) = "texture" ∧
    infer_relation_type "material"
      (some (sampleAsset "t" "p" "a.png" "/p/a.png" "texture" none)) = "material_texture" :=
  ⟨rfl, infer_relation_type_matches_table.1 _ rfl⟩

/-- Claim C1 (code bug): on the batch `[c1RowOne, c1RowTwo]` against an
empty table, the durable `assets` table already contains the first row
after the first per-row statement — before `upsert_batch`'s `COMMIT` —
because each `Database::upsert_asset` call runs on its own pooled
connection in autocommit mode, outside the transaction begun on the held
connection. -/
theorem upsert_batch_row_visible_before_commit :
    (upsert_batch [] [c1RowOne, c1RowTwo]).1 = [[c1RowOne], [c1RowOne, c1RowTwo]] ∧
    (upsert_batch [] [c1RowOne, c1RowTwo]).2.1 = [c1RowOne, c1RowTwo] ∧
    (upsert_batch [] [c1RowOne, c1RowTwo]).2.2 = 2 ∧
    ([c1RowOne] : List Asset) ≠ [] := by
  refine ⟨by decide, by decide, by decide, by decide⟩

/-- Claim C8 (code bug): with `scan_running = true`, `start_scan` still
returns `Ok` and dispatches a second background scan job, and the running
flag is never consulted or modified (`set_scan_running` and
`is_scan_running` have no call sites). -/
theorem start_scan_ignores_running_flag :
    start_scan { cancel_flag := false, scan_running := true } true =
      ({ cancel_flag := false, scan_running := true }, true, true) := rfl

/-! ### Scanner theorems (C5, C6, C9) -/

/-- `push_asset` never changes the stats. -/
theorem push_asset_stats (env : ScanEnv) (st : ScanState) (a : Asset) (rel : String) :
    step_stats (push_asset env st a rel) = st.stats := by
  simp only [push_asset]
  split_ifs <;> rfl

/-- One loop iteration preserves `total_files = unchanged_skipped +
new_or_changed`. -/
theorem scan_step_stats (env : ScanEnv) (e : WalkItem) (st : ScanState)
    (h : st.stats.total_files = st.stats.unchanged_skipped + st.stats.new_or_changed) :
    (step_stats (scan_step env e st)).total_files =
      (step_stats (scan_step env e st)).unchanged_skipped +
        (step_stats (scan_step env e st)).new_or_changed := by
  simp only [scan_step]
  split_ifs <;> try exact h
  split
  · exact h
  · split
    · split_ifs
      · simp only [step_stats]
        omega
      · rw [push_asset_stats]
        dsimp only
        omega
    · rw [push_asset_stats]
      dsimp only
      omega

/-- The walk loop preserves the stats identity through every exit path:
cancellation, callback stop, and normal completion. -/
theorem scan_loop_stats (env : ScanEnv) : ∀ (entries : List WalkItem) (st : ScanState),
    st.stats.total_files = st.stats.unchanged_skipped + st.stats.new_or_changed →
    (scan_loop env entries st).2.1.total_files =
      (scan_loop env entries st).2.1.unchanged_skipped +
        (scan_loop env entries st).2.1.new_or_changed := by
  intro entries
  induction entries with
  | nil =>
    intro st h
    unfold scan_loop scan_finish
    split <;> exact h
  | cons e rest ih =>
    intro st h
    unfold scan_loop
    cases hs : scan_step env e st with
    | stop out =>
      have := scan_step_stats env e st h
      rw [hs] at this
      exact this
    | next st' =>
      apply ih
      have := scan_step_stats env e st h
      rw [hs] at this
      exact this

/-- Claim C6: every run of `scan_files_batch` — run to completion,
cancelled mid-walk, or stopped by the callback returning `false` — returns
`ScanStats` with `total_files = unchanged_skipped + new_or_changed`. -/
theorem scan_files_batch_stats_identity (root_valid : Bool) (env : ScanEnv)
    (entries : List WalkItem) (out : Nat × ScanStats × List (List Asset × Nat × String))
    (h : scan_files_batch root_valid env entries = .ok out) :
    out.2.1.total_files = out.2.1.unchanged_skipped + out.2.1.new_or_changed := by
  unfold scan_files_batch at h
  split at h
  · cases h
    exact scan_loop_stats env entries init_scan_state rfl
  · cases h

/-- Witness for C6 at a concrete run: one texture file, no existing map. -/
theorem scan_files_batch_stats_identity_witness :
    scan_files_batch true plainScanEnv [upperPngEntry] =
      .ok (scan_loop plainScanEnv [upperPngEntry] init_scan_state) ∧
    (scan_loop plainScanEnv [upperPngEntry] init_scan_state).2.1.total_files =
      (scan_loop plainScanEnv [upperPngEntry] init_scan_state).2.1.unchanged_skipped +
        (scan_loop plainScanEnv [upperPngEntry] init_scan_state).2.1.new_or_changed :=
  ⟨rfl, scan_files_batch_stats_identity true plainScanEnv [upperPngEntry] _ rfl⟩

/-- Claim C5: for a file that survives the walk filters, the unchanged
check drives what is emitted: a matching `(mtime, size)` entry skips the
file entirely and counts it in `unchanged_skipped`; a differing entry
emits a record that reuses the existing asset id; no entry emits a record
with a fresh id from the uuid supply. -/
theorem scan_step_incremental_behavior (env : ScanEnv) (e : WalkItem) (st : ScanState)
    (sz mt : Int) (hc : env.cancel st.step = false) (hok : e.is_ok = true)
    (hf : e.is_file = true) (hm : ¬ e.ext = some "meta")
    (hcl : ¬ classify_file e.ext = "unknown") (hmd : e.metadata = some (sz, mt)) :
    (∀ m ex_id, env.existing = some m →
      existing_lookup m e.rel_path = some (ex_id, mt, sz) →
      scan_step env e st = .next { st with
        step := st.step + 1
        stats := { st.stats with
          total_files := st.stats.total_files + 1
          unchanged_skipped := st.stats.unchanged_skipped + 1 } }) ∧
    (∀ m ex_id ex_mt ex_sz, env.existing = some m →
      existing_lookup m e.rel_path = some (ex_id, ex_mt, ex_sz) →
      ¬ (ex_mt = mt ∧ ex_sz = sz) →
      scan_step env e st = push_asset env
        { st with
          step := st.step + 1
          stats := { st.stats with
            total_files := st.stats.total_files + 1
            new_or_changed := st.stats.new_or_changed + 1 } }
        (scanned_asset env e sz mt ex_id) e.rel_path ∧
      (scanned_asset env e sz mt ex_id).id = ex_id) ∧
    ((match env.existing with
      | some m => existing_lookup m e.rel_path
      | none => none) = none →
      scan_step env e st = push_asset env
        { st with
          step := st.step + 1
          fresh := st.fresh + 1
          stats := { st.stats with
            total_files := st.stats.total_files + 1
            new_or_changed := st.stats.new_or_changed + 1 } }
        (scanned_asset env e sz mt (env.uid st.fresh)) e.rel_path ∧
      (scanned_asset env e sz mt (env.uid st.fresh)).id = env.uid st.fresh) := by
  refine ⟨?_, ?_, ?_⟩
  · intro m ex_id hex hlook
    simp only [scan_step, hc, hok, hf, hmd, hex, hlook]
    simp [hm, hcl]
  · intro m ex_id ex_mt ex_sz hex hlook hne
    refine ⟨?_, rfl⟩
    simp only [scan_step, hc, hok, hf, hmd, hex, hlook]
    simp [hm, hcl, hne]
  · intro hnone
    refine ⟨?_, rfl⟩
    simp only [scan_step, hc, hok, hf, hmd, hnone]
    simp [hm, hcl]

/-- Witness for C5 at a concrete input: a stale existing entry, so the
emitted record reuses `old-id`. -/
theorem scan_step_incremental_behavior_witness :
    staleMapEnv.cancel init_scan_state.step = false ∧
    upperPngEntry.is_ok = true ∧
    upperPngEntry.metadata = some (5, 7) ∧
    (scan_step staleMapEnv upperPngEntry init_scan_state = push_asset staleMapEnv
      { init_scan_state with
        step := init_scan_state.step + 1
        stats := { init_scan_state.stats with
          total_files := init_scan_state.stats.total_files + 1
          new_or_changed := init_scan_state.stats.new_or_changed + 1 } }
      (scanned_asset staleMapEnv upperPngEntry 5 7 "old-id") upperPngEntry.rel_path ∧
      (scanned_asset staleMapEnv upperPngEntry 5 7 "old-id").id = "old-id") :=
  ⟨rfl, rfl, rfl,
    ((scan_step_incremental_behavior staleMapEnv upperPngEntry init_scan_state 5 7
      rfl rfl rfl (by decide) (by decide) rfl).2.1
      [("T.PNG", "old-id", 1, 5)] "old-id" 1 5 rfl (by decide) (by decide))⟩

/-- Claim C9, counterexample: scanning a file named `T.PNG` emits an asset
whose stored `extension` is `"PNG"`, which is not lowercase; the asset is
still classified as a texture because classification lowercases first. -/
theorem scanned_extension_not_lowercase :
    (scan_loop plainScanEnv [upperPngEntry] init_scan_state).2.2 =
      [([scanned_asset plainScanEnv upperPngEntry 5 7 "u0"], 1, "")] ∧
    (scanned_asset plainScanEnv upperPngEntry 5 7 "u0").extension = "PNG" ∧
    (scanned_asset plainScanEnv upperPngEntry 5 7 "u0").asset_type = "texture" ∧
    ¬ (scanned_asset plainScanEnv upperPngEntry 5 7 "u0").extension =
      lower_string (scanned_asset plainScanEnv upperPngEntry 5 7 "u0").extension := by
  refine ⟨by decide, by decide, by decide, by decide⟩

/-- `push_asset` only moves assets between the batch and the call trace:
any predicate holding on the batch, the trace, and the pushed asset holds
on the outcome. -/
theorem push_asset_provenance (env : ScanEnv) (st : ScanState) (a : Asset) (rel : String)
    (Q : Asset → Prop) (hb : ∀ x ∈ st.batch, Q x)
    (hcalls : ∀ c ∈ st.calls, ∀ x ∈ c.1, Q x) (ha : Q a) :
    (∀ st', push_asset env st a rel = .next st' →
      (∀ x ∈ st'.batch, Q x) ∧ (∀ c ∈ st'.calls, ∀ x ∈ c.1, Q x)) ∧
    (∀ out, push_asset env st a rel = .stop out → ∀ c ∈ out.2.2, ∀ x ∈ c.1, Q x) := by
  simp only [push_asset]
  split_ifs with h1 h2
  · constructor
    · intro st' hst'
      cases hst'
      refine ⟨by simp, ?_⟩
      intro c hc x hx
      rcases List.mem_append.mp hc with h | h
      · exact hcalls c h x hx
      · simp at h
        subst h
        rcases List.mem_append.mp hx with h | h
        · exact hb x h
        · simp at h; subst h; exact ha
    · intro out hout
      cases hout
  · constructor
    · intro st' hst'; cases hst'
    · intro out hout
      cases hout
      intro c hc x hx
      rcases List.mem_append.mp hc with h | h
      · exact hcalls c h x hx
      · simp at h
        subst h
        rcases List.mem_append.mp hx with h | h
        · exact hb x h
        · simp at h; subst h; exact ha
  · constructor
    · intro st' hst'
      cases hst'
      refine ⟨?_, hcalls⟩
      intro x hx
      rcases List.mem_append.mp hx with h | h
      · exact hb x h
      · simp at h; subst h; exact ha
    · intro out hout; cases hout

/-- One loop iteration only emits assets built from the entry it
processes. -/
theorem scan_step_provenance (env : ScanEnv) (e : WalkItem) (st : ScanState)
    (Q : Asset → Prop) (hb : ∀ x ∈ st.batch, Q x)
    (hcalls : ∀ c ∈ st.calls, ∀ x ∈ c.1, Q x)
    (hnew : ∀ a, asset_from env e a → Q a) :
    (∀ st', scan_step env e st = .next st' →
      (∀ x ∈ st'.batch, Q x) ∧ (∀ c ∈ st'.calls, ∀ x ∈ c.1, Q x)) ∧
    (∀ out, scan_step env e st = .stop out → ∀ c ∈ out.2.2, ∀ x ∈ c.1, Q x) := by
  simp only [scan_step]
  split_ifs
  case pos =>
    constructor
    · intro st' hst'; cases hst'
    · intro out hout; cases hout; exact hcalls
  all_goals try
    (constructor
     · intro st' hst'; cases hst'; exact ⟨hb, hcalls⟩
     · intro out hout; cases hout)
  split
  · constructor
    · intro st' hst'; cases hst'; exact ⟨hb, hcalls⟩
    · intro out hout; cases hout
  case _ sz mt hmeta =>
    split
    · split_ifs
      · constructor
        · intro st' hst'; cases hst'; exact ⟨hb, hcalls⟩
        · intro out hout; cases hout
      · exact push_asset_provenance env _ _ _ Q hb hcalls
          (hnew _ ⟨sz, mt, _, hmeta, rfl⟩)
    · exact push_asset_provenance env _ _ _ Q hb hcalls
        (hnew _ ⟨sz, mt, _, hmeta, rfl⟩)

/-- Every asset in the call trace of a walk comes from the initial state or
from one of the processed entries. -/
theorem scan_loop_provenance (env : ScanEnv) (Q : Asset → Prop) :
    ∀ (entries : List WalkItem) (st : ScanState),
    (∀ x ∈ st.batch, Q x) → (∀ c ∈ st.calls, ∀ x ∈ c.1, Q x) →
    (∀ e ∈ entries, ∀ a, asset_from env e a → Q a) →
    ∀ c ∈ (scan_loop env entries st).2.2, ∀ x ∈ c.1, Q x := by
  intro entries
  induction entries with
  | nil =>
    intro st hb hcalls _ c hc x hx
    unfold scan_loop scan_finish at hc
    split at hc
    · exact hcalls c hc x hx
    · rcases List.mem_append.mp hc with h | h
      · exact hcalls c h x hx
      · simp at h
        subst h
        exact hb x hx
  | cons e rest ih =>
    intro st hb hcalls hent c hc x hx
    unfold scan_loop at hc
    cases hs : scan_step env e st with
    | stop out =>
      rw [hs] at hc
      exact (scan_step_provenance env e st Q hb hcalls
        (hent e (by simp))).2 out hs c hc x hx
    | next st' =>
      rw [hs] at hc
      have hstep := (scan_step_provenance env e st Q hb hcalls (hent e (by simp))).1 st' hs
      exact ih st' hstep.1 hstep.2 (fun e' he' => hent e' (by simp [he'])) c hc x hx

/-- Claim C9, amended: every asset record emitted by `scan_files_batch`
stores the file's extension verbatim (not lowercased); the asset kind is
computed from the lowercased extension. -/
theorem scan_files_batch_extension_raw (root_valid : Bool) (env : ScanEnv)
    (entries : List WalkItem) (out : Nat × ScanStats × List (List Asset × Nat × String))
    (h : scan_files_batch root_valid env entries = .ok out) :
    ∀ c ∈ out.2.2, ∀ a ∈ c.1, ∃ e ∈ entries, ∃ sz mt id,
      e.metadata = some (sz, mt) ∧ a = scanned_asset env e sz mt id ∧
      a.extension = e.ext.getD "" ∧ a.asset_type = classify_file e.ext := by
  unfold scan_files_batch at h
  split at h
  · cases h
    intro c hc a ha
    have := scan_loop_provenance env
      (fun a => ∃ e ∈ entries, asset_from env e a) entries init_scan_state
      (by simp [init_scan_state]) (by simp [init_scan_state])
      (fun e he a hfrom => ⟨e, he, hfrom⟩) c hc a ha
    rcases this with ⟨e, he, sz, mt, id, hmeta, hmk⟩
    exact ⟨e, he, sz, mt, id, hmeta, hmk, by rw [hmk]; rfl, by rw [hmk]; rfl⟩
  · cases h

/-- Witness for the amended C9 at the concrete `T.PNG` run: the emitted
record stores `"PNG"` and classifies via `"png"`. -/
theorem scan_files_batch_extension_raw_witness :
    scan_files_batch true plainScanEnv [upperPngEntry] =
      .ok (scan_loop plainScanEnv [upperPngEntry] init_scan_state) ∧
    (∃ e ∈ [upperPngEntry], ∃ sz mt id,
      e.metadata = some (sz, mt) ∧
      scanned_asset plainScanEnv upperPngEntry 5 7 "u0" = scanned_asset plainScanEnv e sz mt id ∧
      (scanned_asset plainScanEnv upperPngEntry 5 7 "u0").extension = e.ext.getD "" ∧
      (scanned_asset plainScanEnv upperPngEntry 5 7 "u0").asset_type = classify_file e.ext) :=
  ⟨rfl, scan_files_batch_extension_raw true plainScanEnv [upperPngEntry] _ rfl
    ([scanned_asset plainScanEnv upperPngEntry 5 7 "u0"], 1, "") (by decide)
    (scanned_asset plainScanEnv upperPngEntry 5 7 "u0") (by decide)⟩

/-! ### Dependency-tree walk theorems (C3, C4)

The walk only ever extends the visited list by consing, keeps it
duplicate-free, and confined to the root plus the resolved targets of the
table.  On top of these invariants: when the depth bound exceeds the
number of distinct node ids, every pushed node is immediately visited and
the result list is duplicate-free, and the walk's behaviour no longer
depends on the exact bound. -/

/-- The visited-list facts for the edge loop, generically in the recursive
call. -/
theorem collect_deps_list_visited (S : List String)
    (recurse : String → List String → List String → List String × List String)
    (Hrec : ∀ a v r, v.Nodup → (∀ x ∈ v, x ∈ S) → a ∈ S →
      (∃ w, (recurse a v r).1 = w ++ v) ∧ (recurse a v r).1.Nodup ∧
        (∀ x ∈ (recurse a v r).1, x ∈ S)) :
    ∀ (deps : List Dependency) (v r : List String),
      (∀ d ∈ deps, ∀ t, d.to_asset_id = some t → t ∈ S) →
      v.Nodup → (∀ x ∈ v, x ∈ S) →
      (∃ w, (collect_deps_list recurse deps v r).1 = w ++ v) ∧
        (collect_deps_list recurse deps v r).1.Nodup ∧
        (∀ x ∈ (collect_deps_list recurse deps v r).1, x ∈ S) := by
  intro deps
  induction deps with
  | nil => intro v r _ hnd hsub; exact ⟨⟨[], rfl⟩, hnd, hsub⟩
  | cons dep rest ih =>
    intro v r hT hnd hsub
    have hTrest : ∀ d ∈ rest, ∀ t, d.to_asset_id = some t → t ∈ S :=
      fun d hd t ht => hT d (List.mem_cons_of_mem _ hd) t ht
    cases hdep : dep.to_asset_id with
    | none =>
      simp only [collect_deps_list, hdep]
      exact ih v r hTrest hnd hsub
    | some to_id =>
      by_cases hc : v.contains to_id
      · simp only [collect_deps_list, hdep, if_pos hc]
        exact ih v r hTrest hnd hsub
      · simp only [collect_deps_list, hdep, if_neg hc]
        obtain ⟨⟨w, hw⟩, hnd', hsub'⟩ :=
          Hrec to_id v (r ++ [to_id]) hnd hsub (hT dep (by simp) to_id hdep)
        obtain ⟨⟨w', hw'⟩, hnd'', hsub''⟩ :=
          ih (recurse to_id v (r ++ [to_id])).1 (recurse to_id v (r ++ [to_id])).2
            hTrest hnd' hsub'
        refine ⟨⟨w' ++ w, ?_⟩, hnd'', hsub''⟩
        rw [hw', hw, List.append_assoc]

/-- The visited list only grows (as a suffix extension), stays
duplicate-free, and stays inside any `S` containing the start node and all
resolved targets. -/
theorem collect_dependencies_visited (table : List Dependency) (S : List String)
    (hS : ∀ d ∈ table, ∀ t, d.to_asset_id = some t → t ∈ S) :
    ∀ (fuel : Nat) (a : String) (v r : List String),
      v.Nodup → (∀ x ∈ v, x ∈ S) → a ∈ S →
      (∃ w, (collect_dependencies table fuel a v r).1 = w ++ v) ∧
        (collect_dependencies table fuel a v r).1.Nodup ∧
        (∀ x ∈ (collect_dependencies table fuel a v r).1, x ∈ S) := by
  intro fuel
  induction fuel with
  | zero => intro a v r hnd hsub _; exact ⟨⟨[], rfl⟩, hnd, hsub⟩
  | succ fuel ih =>
    intro a v r hnd hsub haS
    by_cases hc : v.contains a
    · simp only [collect_dependencies, if_pos hc]
      exact ⟨⟨[], rfl⟩, hnd, hsub⟩
    · simp only [collect_dependencies, if_neg hc]
      have hnotmem : a ∉ v := by simpa using hc
      have h1 : (a :: v).Nodup := List.nodup_cons.mpr ⟨hnotmem, hnd⟩
      have h2 : ∀ x ∈ a :: v, x ∈ S := by
        intro x hx
        rcases List.mem_cons.mp hx with h | h
        · exact h ▸ haS
        · exact hsub x h
      obtain ⟨⟨w, hw⟩, hnd', hsub'⟩ :=
        collect_deps_list_visited S _ (fun a' v' r' hv hsubv ha' => ih a' v' r' hv hsubv ha')
          (get_dependencies table a) (a :: v) r
          (fun d hd t ht => hS d (List.mem_filter.mp hd).1 t ht) h1 h2
      refine ⟨⟨w ++ [a], ?_⟩, hnd', hsub'⟩
      rw [hw]
      simp

/-- Everything the edge loop appends to the result satisfies `P`,
generically in the recursive call. -/
theorem collect_deps_list_targets (P : String → Prop)
    (recurse : String → List String → List String → List String × List String)
    (Hrec : ∀ a v r, ∀ x ∈ (recurse a v r).2, x ∈ r ∨ P x) :
    ∀ (deps : List Dependency) (v r : List String),
      (∀ d ∈ deps, ∀ t, d.to_asset_id = some t → P t) →
      ∀ x ∈ (collect_deps_list recurse deps v r).2, x ∈ r ∨ P x := by
  intro deps
  induction deps with
  | nil => intro v r _ x hx; exact Or.inl hx
  | cons dep rest ih =>
    intro v r hT x hx
    have hTrest : ∀ d ∈ rest, ∀ t, d.to_asset_id = some t → P t :=
      fun d hd t ht => hT d (List.mem_cons_of_mem _ hd) t ht
    cases hdep : dep.to_asset_id with
    | none =>
      simp only [collect_deps_list, hdep] at hx
      exact ih v r hTrest x hx
    | some to_id =>
      by_cases hc : v.contains to_id
      · simp only [collect_deps_list, hdep, if_pos hc] at hx
        exact ih v r hTrest x hx
      · simp only [collect_deps_list, hdep, if_neg hc] at hx
        rcases ih (recurse to_id v (r ++ [to_id])).1 (recurse to_id v (r ++ [to_id])).2
          hTrest x hx with h | h
        · rcases Hrec to_id v (r ++ [to_id]) x h with h2 | h2
          · rcases List.mem_append.mp h2 with h3 | h3
            · exact Or.inl h3
            · simp at h3
              exact Or.inr (h3 ▸ hT dep (by simp) to_id hdep)
          · exact Or.inr h2
        · exact Or.inr h

/-- Every id in the walk's result that was not already there is the
resolved target of some edge in the table. -/
theorem collect_dependencies_targets (table : List Dependency) :
    ∀ (fuel : Nat) (a : String) (v r : List String),
      ∀ x ∈ (collect_dependencies table fuel a v r).2,
        x ∈ r ∨ ∃ d ∈ table, d.to_asset_id = some x := by
  intro fuel
  induction fuel with
  | zero => intro a v r x hx; exact Or.inl hx
  | succ fuel ih =>
    intro a v r x hx
    by_cases hc : v.contains a
    · simp only [collect_dependencies, if_pos hc] at hx
      exact Or.inl hx
    · simp only [collect_dependencies, if_neg hc] at hx
      exact collect_deps_list_targets _ _ (fun a' v' r' => ih a' v' r')
        (get_dependencies table a) (a :: v) r
        (fun d hd t ht => ⟨d, (List.mem_filter.mp hd).1, ht⟩) x hx

/-- The Nodup invariant for the edge loop under a large depth budget,
generically in the recursive call (`fuel` is the budget the loop hands to
each recursive call). -/
theorem collect_deps_list_nodup (S : List String) (fuel : Nat)
    (recurse : String → List String → List String → List String × List String)
    (Hrec : ∀ a v r, v.Nodup → (∀ x ∈ v, x ∈ S) → a ∈ S →
      r.Nodup → (∀ x ∈ r, x ∈ v ∨ x = a) → S.length < fuel + v.length →
      (∃ w, (recurse a v r).1 = w ++ v) ∧ (recurse a v r).1.Nodup ∧
      (∀ x ∈ (recurse a v r).1, x ∈ S) ∧ (recurse a v r).2.Nodup ∧
      (∀ x ∈ (recurse a v r).2, x ∈ (recurse a v r).1) ∧ a ∈ (recurse a v r).1) :
    ∀ (deps : List Dependency) (v r : List String),
      (∀ d ∈ deps, ∀ t, d.to_asset_id = some t → t ∈ S) →
      v.Nodup → (∀ x ∈ v, x ∈ S) → r.Nodup → (∀ x ∈ r, x ∈ v) →
      S.length < fuel + v.length →
      (∃ w, (collect_deps_list recurse deps v r).1 = w ++ v) ∧
      (collect_deps_list recurse deps v r).1.Nodup ∧
      (∀ x ∈ (collect_deps_list recurse deps v r).1, x ∈ S) ∧
      (collect_deps_list recurse deps v r).2.Nodup ∧
      (∀ x ∈ (collect_deps_list recurse deps v r).2,
        x ∈ (collect_deps_list recurse deps v r).1) := by
  intro deps
  induction deps with
  | nil =>
    intro v r _ hvnd hvsub hrnd hrv _
    exact ⟨⟨[], rfl⟩, hvnd, hvsub, hrnd, hrv⟩
  | cons dep rest ih =>
    intro v r hT hvnd hvsub hrnd hrv hbig
    have hTrest : ∀ d ∈ rest, ∀ t, d.to_asset_id = some t → t ∈ S :=
      fun d hd t ht => hT d (List.mem_cons_of_mem _ hd) t ht
    cases hdep : dep.to_asset_id with
    | none =>
      simp only [collect_deps_list, hdep]
      exact ih v r hTrest hvnd hvsub hrnd hrv hbig
    | some to_id =>
      by_cases hc : v.contains to_id
      · simp only [collect_deps_list, hdep, if_pos hc]
        exact ih v r hTrest hvnd hvsub hrnd hrv hbig
      · simp only [collect_deps_list, hdep, if_neg hc]
        have hto_mem : to_id ∉ v := by simpa using hc
        have hto_S : to_id ∈ S := hT dep (by simp) to_id hdep
        have hrnd' : (r ++ [to_id]).Nodup := by
          rw [List.nodup_append]
          exact ⟨hrnd, List.nodup_singleton _,
            fun x hx => by simp; intro he; exact hto_mem (he ▸ hrv x hx)⟩
        have hrv' : ∀ x ∈ r ++ [to_id], x ∈ v ∨ x = to_id := by
          intro x hx
          rcases List.mem_append.mp hx with h | h
          · exact Or.inl (hrv x h)
          · simp at h; exact Or.inr h
        obtain ⟨⟨w, hw⟩, hnd1, hsub1, hnd2, hrin, hain⟩ :=
          Hrec to_id v (r ++ [to_id]) hvnd hvsub hto_S hrnd' hrv' hbig
        have hlen : v.length ≤ (recurse to_id v (r ++ [to_id])).1.length := by
          rw [hw]; simp
        obtain ⟨⟨w', hw'⟩, hnd1', hsub1', hnd2', hrin'⟩ :=
          ih (recurse to_id v (r ++ [to_id])).1 (recurse to_id v (r ++ [to_id])).2
            hTrest hnd1 hsub1 hnd2 hrin (by omega)
        refine ⟨⟨w' ++ w, ?_⟩, hnd1', hsub1', hnd2', hrin'⟩
        rw [hw', hw, List.append_assoc]

/-- When the depth budget exceeds the number of distinct candidate ids,
every pushed node is immediately visited: the result list stays
duplicate-free and contained in the visited list. -/
theorem collect_dependencies_nodup (table : List Dependency) (S : List String)
    (hS : ∀ d ∈ table, ∀ t, d.to_asset_id = some t → t ∈ S) :
    ∀ (fuel : Nat) (a : String) (v r : List String),
      v.Nodup → (∀ x ∈ v, x ∈ S) → a ∈ S →
      r.Nodup → (∀ x ∈ r, x ∈ v ∨ x = a) → S.length < fuel + v.length →
      (∃ w, (collect_dependencies table fuel a v r).1 = w ++ v) ∧
      (collect_dependencies table fuel a v r).1.Nodup ∧
      (∀ x ∈ (collect_dependencies table fuel a v r).1, x ∈ S) ∧
      (collect_dependencies table fuel a v r).2.Nodup ∧
      (∀ x ∈ (collect_dependencies table fuel a v r).2,
        x ∈ (collect_dependencies table fuel a v r).1) ∧
      a ∈ (collect_dependencies table fuel a v r).1 := by
  intro fuel
  induction fuel with
  | zero =>
    intro a v r hvnd hvsub _ _ _ hbig
    have := (List.subperm_of_subset hvnd (fun x hx => hvsub x hx)).length_le
    omega
  | succ fuel ih =>
    intro a v r hvnd hvsub haS hrnd hrv hbig
    by_cases hc : v.contains a
    · have hav : a ∈ v := by simpa using hc
      simp only [collect_dependencies, if_pos hc]
      refine ⟨⟨[], rfl⟩, hvnd, hvsub, hrnd, ?_, hav⟩
      intro x hx
      rcases hrv x hx with h | h
      · exact h
      · exact h ▸ hav
    · simp only [collect_dependencies, if_neg hc]
      have hnotmem : a ∉ v := by simpa using hc
      have h1 : (a :: v).Nodup := List.nodup_cons.mpr ⟨hnotmem, hvnd⟩
      have h2 : ∀ x ∈ a :: v, x ∈ S := by
        intro x hx
        rcases List.mem_cons.mp hx with h | h
        · exact h ▸ haS
        · exact hvsub x h
      have hrv' : ∀ x ∈ r, x ∈ a :: v := by
        intro x hx
        rcases hrv x hx with h | h
        · exact List.mem_cons_of_mem _ h
        · exact h ▸ List.mem_cons_self _ _
      obtain ⟨⟨w, hw⟩, hnd1, hsub1, hnd2, hrin⟩ :=
        collect_deps_list_nodup S fuel _
          (fun a' v' r' hv hsubv ha' hrn hrva hb => ih a' v' r' hv hsubv ha' hrn hrva hb)
          (get_dependencies table a) (a :: v) r
          (fun d hd t ht => hS d (List.mem_filter.mp hd).1 t ht)
          h1 h2 hrnd hrv' (by simp; omega)
      refine ⟨⟨w ++ [a], by rw [hw]; simp⟩, hnd1, hsub1, hnd2, hrin, ?_⟩
      have : a ∈ a :: v := List.mem_cons_self _ _
      rw [hw]
      exact List.mem_append.mpr (Or.inr this)

/-- Membership facts about `tree_nodes`. -/
theorem tree_nodes_spec (table : List Dependency) (root : String) :
    root ∈ tree_nodes table root ∧
    ∀ d ∈ table, ∀ t, d.to_asset_id = some t → t ∈ tree_nodes table root := by
  constructor
  · unfold tree_nodes
    rw [List.mem_dedup]
    exact List.mem_cons_self _ _
  · intro d hd t ht
    unfold tree_nodes
    rw [List.mem_dedup]
    exact List.mem_cons_of_mem _ (List.mem_filterMap.mpr ⟨d, hd, ht⟩)

/-- Claim C3, counterexample: in the diamond graph `r → a → c`, `r → b → c`
at depth bound 2, the node `c` is reached twice at the bound without
being marked visited, so the returned list contains `c` twice. -/
theorem get_dependency_tree_has_duplicates :
    get_dependency_tree diamondTable "r" 2 = ["a", "c", "b", "c"] ∧
    ¬ (get_dependency_tree diamondTable "r" 2).Nodup := by
  exact ⟨by decide, by decide⟩

/-- Claim C3, amended: the walk visits resolved outgoing edges only (every
returned id is the resolved target of a table edge), and the returned list
is duplicate-free whenever the depth bound exceeds the number of distinct
candidate ids; for smaller bounds, ids first reached at the bound may
repeat.  Termination on cyclic edge sets is intrinsic: the embedding is a
total function. -/
theorem get_dependency_tree_nodup_of_deep (table : List Dependency) (root : String)
    (max_depth : Nat) :
    ((tree_nodes table root).length < max_depth →
      (get_dependency_tree table root max_depth).Nodup) ∧
    (∀ x ∈ get_dependency_tree table root max_depth,
      ∃ d ∈ table, d.to_asset_id = some x) := by
  constructor
  · intro hbig
    have h :=
      collect_dependencies_nodup table (tree_nodes table root)
        (tree_nodes_spec table root).2 max_depth root [] []
        List.nodup_nil (by simp) (tree_nodes_spec table root).1
        List.nodup_nil (by simp) (by simpa using hbig)
    exact h.2.2.2.1
  · intro x hx
    rcases collect_dependencies_targets table max_depth root [] [] x hx with h | h
    · simp at h
    · exact h

/-- Witness for the amended C3: the diamond graph with a bound larger than
its id count yields a duplicate-free list. -/
theorem get_dependency_tree_nodup_of_deep_witness :
    (tree_nodes diamondTable "r").length < 10 ∧
    (get_dependency_tree diamondTable "r" 10).Nodup :=
  ⟨by decide, (get_dependency_tree_nodup_of_deep diamondTable "r" 10).1 (by decide)⟩

/-- Two walks of the edge loop with different (sufficiently large) depth
budgets coincide, generically in the recursive calls. -/
theorem collect_deps_list_fuel_eq (S : List String) (fuel1 fuel2 : Nat)
    (recurse1 recurse2 : String → List String → List String → List String × List String)
    (Hrec : ∀ a v r, v.Nodup → (∀ x ∈ v, x ∈ S) → a ∈ S →
      S.length < fuel1 + v.length → S.length < fuel2 + v.length →
      recurse1 a v r = recurse2 a v r ∧ (∃ w, (recurse1 a v r).1 = w ++ v) ∧
      (recurse1 a v r).1.Nodup ∧ (∀ x ∈ (recurse1 a v r).1, x ∈ S)) :
    ∀ (deps : List Dependency) (v r : List String),
      (∀ d ∈ deps, ∀ t, d.to_asset_id = some t → t ∈ S) →
      v.Nodup → (∀ x ∈ v, x ∈ S) →
      S.length < fuel1 + v.length → S.length < fuel2 + v.length →
      collect_deps_list recurse1 deps v r = collect_deps_list recurse2 deps v r := by
  intro deps
  induction deps with
  | nil => intro v r _ _ _ _ _; rfl
  | cons dep rest ih =>
    intro v r hT hvnd hvsub hbig1 hbig2
    have hTrest : ∀ d ∈ rest, ∀ t, d.to_asset_id = some t → t ∈ S :=
      fun d hd t ht => hT d (List.mem_cons_of_mem _ hd) t ht
    cases hdep : dep.to_asset_id with
    | none =>
      simp only [collect_deps_list, hdep]
      exact ih v r hTrest hvnd hvsub hbig1 hbig2
    | some to_id =>
      by_cases hc : v.contains to_id
      · simp only [collect_deps_list, hdep, if_pos hc]
        exact ih v r hTrest hvnd hvsub hbig1 hbig2
      · simp only [collect_deps_list, hdep, if_neg hc]
        obtain ⟨heq, ⟨w, hw⟩, hnd1, hsub1⟩ :=
          Hrec to_id v (r ++ [to_id]) hvnd hvsub (hT dep (by simp) to_id hdep) hbig1 hbig2
        rw [← heq]
        have hlen : v.length ≤ (recurse1 to_id v (r ++ [to_id])).1.length := by
          rw [hw]; simp
        exact ih (recurse1 to_id v (r ++ [to_id])).1 (recurse1 to_id v (r ++ [to_id])).2
          hTrest hnd1 hsub1 (by omega) (by omega)

/-- Two walks with different depth bounds coincide as soon as both bounds
exceed the number of distinct candidate ids. -/
theorem collect_dependencies_fuel_eq (table : List Dependency) (S : List String)
    (hS : ∀ d ∈ table, ∀ t, d.to_asset_id = some t → t ∈ S) :
    ∀ (fuel1 fuel2 : Nat) (a : String) (v r : List String),
      v.Nodup → (∀ x ∈ v, x ∈ S) → a ∈ S →
      S.length < fuel1 + v.length → S.length < fuel2 + v.length →
      collect_dependencies table fuel1 a v r = collect_dependencies table fuel2 a v r := by
  intro fuel1
  induction fuel1 with
  | zero =>
    intro fuel2 a v r hvnd hvsub _ hbig1 _
    have := (List.subperm_of_subset hvnd (fun x hx => hvsub x hx)).length_le
    omega
  | succ f1 ih =>
    intro fuel2 a v r hvnd hvsub haS hbig1 hbig2
    cases fuel2 with
    | zero =>
      have := (List.subperm_of_subset hvnd (fun x hx => hvsub x hx)).length_le
      omega
    | succ f2 =>
      by_cases hc : v.contains a
      · simp only [collect_dependencies, if_pos hc]
      · simp only [collect_dependencies, if_neg hc]
        have hnotmem : a ∉ v := by simpa using hc
        have h1 : (a :: v).Nodup := List.nodup_cons.mpr ⟨hnotmem, hvnd⟩
        have h2 : ∀ x ∈ a :: v, x ∈ S := by
          intro x hx
          rcases List.mem_cons.mp hx with h | h
          · exact h ▸ haS
          · exact hvsub x h
        refine collect_deps_list_fuel_eq S f1 f2 _ _ ?_ (get_dependencies table a)
          (a :: v) r (fun d hd t ht => hS d (List.mem_filter.mp hd).1 t ht)
          h1 h2 (by simp; omega) (by simp; omega)
        intro a' v' r' hv hsubv ha' hb1 hb2
        refine ⟨ih f2 a' v' r' hv hsubv ha' hb1 hb2, ?_, ?_, ?_⟩
        · exact (collect_dependencies_visited table S hS f1 a' v' r' hv hsubv ha').1
        · exact (collect_dependencies_visited table S hS f1 a' v' r' hv hsubv ha').2.1
        · exact (collect_dependencies_visited table S hS f1 a' v' r' hv hsubv ha').2.2

/-- Claim C4, counterexample: in the graph `r → a, r → q, a → b, b → q,
q → p, p → c`, the id `c` is in the tree at depth bound 3 but not at the
larger bound 4 — the deeper run expands `q` at depth 3 with only one unit
of budget left, so `p` is never expanded, while the shallower run
re-expands `q` from the root edge with budget to reach `c`. -/
theorem get_dependency_tree_not_monotone :
    3 ≤ 4 ∧
    "c" ∈ get_dependency_tree nonmonoTable "r" 3 ∧
    "c" ∉ get_dependency_tree nonmonoTable "r" 4 := by
  exact ⟨by decide, by decide, by decide⟩

/-- Claim C4, amended: depth bound 0 returns the empty list, the walk is a
total function (cycles never cause divergence), and beyond the number of
distinct candidate ids the result no longer depends on the bound (hence is
monotone there); monotonicity between arbitrary bounds fails. -/
theorem get_dependency_tree_zero_and_stable (table : List Dependency) (root : String) :
    get_dependency_tree table root 0 = [] ∧
    ∀ d1 d2 : Nat, (tree_nodes table root).length < d1 → d1 ≤ d2 →
      get_dependency_tree table root d1 = get_dependency_tree table root d2 := by
  refine ⟨rfl, ?_⟩
  intro d1 d2 hbig hle
  unfold get_dependency_tree
  rw [collect_dependencies_fuel_eq table (tree_nodes table root)
    (tree_nodes_spec table root).2 d1 d2 root [] [] List.nodup_nil (by simp)
    (tree_nodes_spec table root).1 (by simpa using hbig) (by simp; omega)]

/-- Witness for the amended C4: the diamond graph stabilises beyond its id
count. -/
theorem get_dependency_tree_zero_and_stable_witness :
    get_dependency_tree diamondTable "r" 0 = [] ∧
    (tree_nodes diamondTable "r").length < 5 ∧
    get_dependency_tree diamondTable "r" 5 = get_dependency_tree diamondTable "r" 9 :=
  ⟨(get_dependency_tree_zero_and_stable diamondTable "r").1, by decide,
    (get_dependency_tree_zero_and_stable diamondTable "r").2 5 9 (by decide) (by decide)⟩

/-! ### Exporter theorems (C10) -/

/-- Through the bundle copy loop, a relative path whose every carrier in
the candidate list has a missing source (an absolute path outside the
destination that does not exist) never enters the exported-files list. -/
theorem export_loop_skips_missing (dest R A : String)
    (hA : ∀ s, A ≠ (dest ++ "/") ++ s) :
    ∀ (l : List Asset) (files paths fs : List String),
      (∀ ea ∈ l, ea.relative_path = R → ea.absolute_path = A) →
      A ∉ fs → R ∉ files →
      R ∉ (export_loop dest l (files, paths, fs)).1 := by
  intro l
  induction l with
  | nil =>
    intro files paths fs _ _ hR
    exact hR
  | cons ea rest ih =>
    intro files paths fs hcar hAfs hR
    have hcar' : ∀ b ∈ rest, b.relative_path = R → b.absolute_path = A :=
      fun b hb => hcar b (List.mem_cons_of_mem _ hb)
    by_cases hexists : ea.absolute_path ∈ fs
    · by_cases hdup : ea.relative_path ∈ paths
      · simp only [export_loop, if_pos hexists, if_pos hdup]
        exact ih files paths fs hcar' hAfs hR
      · simp only [export_loop, if_pos hexists, if_neg hdup]
        have hne : ea.relative_path ≠ R := by
          intro he
          exact hAfs ((hcar ea (by simp) he) ▸ hexists)
        have hR' : R ∉ files ++ [ea.relative_path] := by
          intro hmem
          rcases List.mem_append.mp hmem with h | h
          · exact hR h
          · simp at h; exact hne h.symm
        have hAfs2 : A ∉
            (if meta_path ea.absolute_path ∈
                fs_copy fs ea.absolute_path (path_join dest ea.relative_path) then
              fs_copy (fs_copy fs ea.absolute_path (path_join dest ea.relative_path))
                (meta_path ea.absolute_path)
                (meta_path (path_join dest ea.relative_path))
            else fs_copy fs ea.absolute_path (path_join dest ea.relative_path)) := by
          have h1 : A ≠ path_join dest ea.relative_path := by
            intro he
            exact hA ea.relative_path (by simpa [path_join] using he)
          have h2 : A ≠ meta_path (path_join dest ea.relative_path) := by
            intro he
            refine hA (ea.relative_path ++ ".meta") ?_
            rw [he]
            simp [meta_path, path_join, String.append_assoc]
          split_ifs with hmeta
          · simp only [fs_copy, List.mem_cons]
            rintro (h | h | h)
            · exact h2 h
            · exact h1 h
            · exact hAfs h
          · simp only [fs_copy, List.mem_cons]
            rintro (h | h)
            · exact h1 h
            · exact hAfs h
        exact ih (files ++ [ea.relative_path]) (paths ++ [ea.relative_path]) _
          hcar' hAfs2 hR'
    · simp only [export_loop, if_neg hexists]
      exact ih files paths fs hcar' hAfs hR

/-- Claim C10: with the root asset's source file missing from the file
system, `export_file` fails with a non-empty error and copies nothing,
while `export_bundle` still succeeds, writes `manifest.json` under the
destination, and omits the missing file from `exported_files`. -/
theorem export_missing_source_behavior (fs : List String) (assets : List Asset)
    (deps : List Dependency) (projects : List Project) (now_str : String)
    (asset : Asset) (dest : String) (max_depth : Nat)
    (hmiss : asset.absolute_path ∉ fs)
    (hA : ∀ s, asset.absolute_path ≠ (dest ++ "/") ++ s)
    (hshare : ∀ b ∈ assets, b.relative_path = asset.relative_path →
      b.absolute_path = asset.absolute_path) :
    ((export_file fs asset dest).1.success = false ∧
      (export_file fs asset dest).1.error ≠ none ∧
      (export_file fs asset dest).1.exported_files = [] ∧
      (export_file fs asset dest).2 = fs) ∧
    ((export_bundle fs assets deps projects now_str asset dest max_depth).1.success = true ∧
      (export_bundle fs assets deps projects now_str asset dest max_depth).1.manifest_path =
        some (path_join dest "manifest.json") ∧
      path_join dest "manifest.json" ∈
        (export_bundle fs assets deps projects now_str asset dest max_depth).2.2 ∧
      asset.relative_path ∉
        (export_bundle fs assets deps projects now_str asset dest max_depth).1.exported_files) := by
  constructor
  · simp [export_file, hmiss]
  · refine ⟨rfl, rfl, List.mem_cons_self _ _, ?_⟩
    show asset.relative_path ∉ (export_loop dest _ ([], [], fs)).1
    refine export_loop_skips_missing dest asset.relative_path asset.absolute_path hA _
      [] [] fs ?_ hmiss (by simp)
    intro ea hea hrel
    rcases List.mem_cons.mp hea with h | h
    · rw [h]
    · rcases List.mem_filterMap.mp h with ⟨i, _, hfind⟩
      exact hshare ea (List.mem_of_find?_eq_some hfind) hrel

/-- Witness for C10 at a concrete input: one missing-source asset, empty
catalog tables, destination `out`. -/
theorem export_missing_source_behavior_witness :
    ((export_file ["other"] ghostAsset "out").1.success = false ∧
      (export_file ["other"] ghostAsset "out").1.error ≠ none ∧
      (export_file ["other"] ghostAsset "out").1.exported_files = [] ∧
      (export_file ["other"] ghostAsset "out").2 = ["other"]) ∧
    ((export_bundle ["other"] [ghostAsset] [] [] "ts" ghostAsset "out" 5).1.success = true ∧
      (export_bundle ["other"] [ghostAsset] [] [] "ts" ghostAsset "out" 5).1.manifest_path =
        some (path_join "out" "manifest.json") ∧
      path_join "out" "manifest.json" ∈
        (export_bundle ["other"] [ghostAsset] [] [] "ts" ghostAsset "out" 5).2.2 ∧
      ghostAsset.relative_path ∉
        (export_bundle ["other"] [ghostAsset] [] [] "ts" ghostAsset "out" 5).1.exported_files) :=
  export_missing_source_behavior ["other"] [ghostAsset] [] [] "ts" ghostAsset "out" 5
    (by decide)
    (fun s h => by
      have := congrArg String.length h
      simp [String.length_append, ghostAsset, sampleAsset] at this
      have e1 : "zzz".length = 3 := rfl
      have e2 : "out/".length = 4 := rfl
      omega)
    (fun b hb _ => by
      rcases List.mem_singleton.mp hb with h
      rw [h])

/-! ### Resolver theorems (C2)

`uuid::Uuid::new_v4` produces fresh ids; the embedding's id supply is
hypothesised injective and disjoint from the pre-existing rows, which is
the (probability-one) property the code relies on for `INSERT OR REPLACE`
to behave as a plain insert. -/

/-- Inserting a row whose id is fresh appends it. -/
theorem insert_dependency_fresh (table : List Dependency) (d : Dependency)
    (h : ∀ e ∈ table, e.id ≠ d.id) : insert_dependency table d = table ++ [d] := by
  unfold insert_dependency
  congr 1
  apply List.filter_eq_self.mpr
  intro e he
  simpa using h e he

/-- Folding fresh, mutually distinct inserts appends the whole list. -/
theorem foldl_insert_fresh : ∀ (new table : List Dependency),
    (∀ d ∈ new, ∀ e ∈ table, e.id ≠ d.id) → (new.map (fun d => d.id)).Nodup →
    new.foldl insert_dependency table = table ++ new := by
  intro new
  induction new with
  | nil => intro table _ _; simp
  | cons d rest ih =>
    intro table hfr hnd
    have h1 : insert_dependency table d = table ++ [d] :=
      insert_dependency_fresh table d (fun e he => hfr d (by simp) e he)
    have hdn : d.id ∉ rest.map (fun d => d.id) := (List.nodup_cons.mp hnd).1
    have h2 : ∀ d' ∈ rest, ∀ e ∈ table ++ [d], e.id ≠ d'.id := by
      intro d' hd' e he
      rcases List.mem_append.mp he with h | h
      · exact hfr d' (List.mem_cons_of_mem _ hd') e h
      · simp at h
        subst h
        intro heq
        exact hdn (heq ▸ List.mem_map.mpr ⟨d', hd', rfl⟩)
    calc (d :: rest).foldl insert_dependency table
        = rest.foldl insert_dependency (insert_dependency table d) := rfl
      _ = (table ++ [d]) ++ rest := by rw [h1, ih _ h2 (List.nodup_cons.mp hnd).2]
      _ = table ++ (d :: rest) := by simp

/-- Field facts about every row the guid loop builds: source id, captured
guid, non-self guid, id from the supply within the window, resolved
target, and relation type. -/
theorem build_deps_fields (assets : List Asset) (uid : Nat → String) (now : Int)
    (asset : Asset) : ∀ (guids : List String) (k : Nat),
    ∀ d ∈ build_deps assets uid now asset guids k,
      d.from_asset_id = asset.id ∧ d.to_guid ∈ guids ∧
      asset.unity_guid ≠ some d.to_guid ∧
      (∃ m, k ≤ m ∧ m < k + (build_deps assets uid now asset guids k).length ∧
        d.id = uid m) ∧
      d.to_asset_id =
        (get_asset_by_guid assets asset.project_id d.to_guid).map (fun a => a.id) ∧
      d.relation_type =
        infer_relation_type asset.asset_type
          (get_asset_by_guid assets asset.project_id d.to_guid) := by
  intro guids
  induction guids with
  | nil => intro k d hd; simp [build_deps] at hd
  | cons g rest ih =>
    intro k d hd
    by_cases hown : asset.unity_guid = some g
    · rw [build_deps, if_pos hown] at hd
      obtain ⟨h1, h2, h3, ⟨m, hm1, hm2, hm3⟩, h5, h6⟩ := ih k d hd
      refine ⟨h1, List.mem_cons_of_mem _ h2, h3, ⟨m, hm1, ?_, hm3⟩, h5, h6⟩
      rw [build_deps, if_pos hown]
      omega
    · rw [build_deps, if_neg hown] at hd
      rcases List.mem_cons.mp hd with h | h
      · subst h
        refine ⟨rfl, by simp, by simpa using hown, ⟨k, le_refl _, ?_, rfl⟩, rfl, rfl⟩
        rw [build_deps, if_neg hown]
        simp
      · obtain ⟨h1, h2, h3, ⟨m, hm1, hm2, hm3⟩, h5, h6⟩ := ih (k + 1) d h
        refine ⟨h1, List.mem_cons_of_mem _ h2, h3, ⟨m, by omega, ?_, hm3⟩, h5, h6⟩
        rw [build_deps, if_neg hown]
        simp
        omega

/-- The guid loop draws strictly increasing indices from the id supply, so
with an injective supply the built ids are distinct. -/
theorem build_deps_ids_nodup (assets : List Asset) (uid : Nat → String) (now : Int)
    (asset : Asset) (huid : ∀ m n, uid m = uid n → m = n) :
    ∀ (guids : List String) (k : Nat),
    ((build_deps assets uid now asset guids k).map (fun d => d.id)).Nodup := by
  intro guids
  induction guids with
  | nil => intro k; simp [build_deps]
  | cons g rest ih =>
    intro k
    by_cases hown : asset.unity_guid = some g
    · rw [build_deps, if_pos hown]
      exact ih k
    · rw [build_deps, if_neg hown]
      simp only [List.map_cons]
      refine List.nodup_cons.mpr ⟨?_, ih (k + 1)⟩
      intro hmem
      rcases List.mem_map.mp hmem with ⟨d, hd, hid⟩
      obtain ⟨_, _, _, ⟨m, hm1, _, hm3⟩, _, _⟩ :=
        build_deps_fields assets uid now asset rest (k + 1) d hd
      have : k = m := huid k m (by rw [← hid, hm3])
      omega

/-- A guid outside the list yields no built row. -/
theorem build_deps_filter_not_mem (assets : List Asset) (uid : Nat → String) (now : Int)
    (asset : Asset) (g : String) : ∀ (guids : List String) (k : Nat), g ∉ guids →
    (build_deps assets uid now asset guids k).filter (fun d => d.to_guid = g) = [] := by
  intro guids
  induction guids with
  | nil => intro k _; simp [build_deps]
  | cons g' rest ih =>
    intro k hg
    have hg' : g ∉ rest := fun h => hg (List.mem_cons_of_mem _ h)
    have hne : g' ≠ g := fun h => hg (h ▸ List.mem_cons_self _ _)
    by_cases hown : asset.unity_guid = some g'
    · rw [build_deps, if_pos hown]
      exact ih k hg'
    · rw [build_deps, if_neg hown]
      rw [List.filter_cons_of_neg (by simpa using hne)]
      exact ih (k + 1) hg'

/-- Each non-self guid in a duplicate-free list yields exactly one built
row. -/
theorem build_deps_filter_count_one (assets : List Asset) (uid : Nat → String) (now : Int)
    (asset : Asset) (g : String) : ∀ (guids : List String) (k : Nat), guids.Nodup →
    g ∈ guids → asset.unity_guid ≠ some g →
    ((build_deps assets uid now asset guids k).filter
      (fun d => d.to_guid = g)).length = 1 := by
  intro guids
  induction guids with
  | nil => intro k _ hg _; simp at hg
  | cons g' rest ih =>
    intro k hnd hg hown
    rcases List.mem_cons.mp hg with hgg | hgrest
    · subst hgg
      rw [build_deps, if_neg (by exact hown)]
      rw [List.filter_cons_of_pos (by simp)]
      rw [build_deps_filter_not_mem assets uid now asset g rest (k + 1)
        (List.nodup_cons.mp hnd).1]
      rfl
    · by_cases hown' : asset.unity_guid = some g'
      · rw [build_deps, if_pos hown']
        exact ih k (List.nodup_cons.mp hnd).2 hgrest hown
      · have hne : g' ≠ g := by
          intro h
          exact (List.nodup_cons.mp hnd).1 (h ▸ hgrest)
        rw [build_deps, if_neg hown']
        rw [List.filter_cons_of_neg (by simpa using hne)]
        exact ih (k + 1) (List.nodup_cons.mp hnd).2 hgrest hown

/-- `resolve_dependencies_for_asset` on a parseable asset with readable
content is exactly the guid loop over the extracted guids. -/
theorem resolve_deps_eq_build (fs_read : String → Option String) (assets : List Asset)
    (uid : Nat → String) (now : Int) (base : Nat) (b : Asset) (content : String)
    (htype : b.asset_type ∈ parseable_types) (hread : fs_read b.absolute_path = some content) :
    resolve_dependencies_for_asset fs_read assets uid now base b =
      build_deps assets uid now b (extract_guids content) base := by
  unfold resolve_dependencies_for_asset
  rw [if_pos htype, hread]

/-- Every row the resolver emits for `b` carries `b`'s id as source, and an
id drawn from the supply inside the window `[base, base + count)`. -/
theorem resolve_deps_mem (fs_read : String → Option String) (assets : List Asset)
    (uid : Nat → String) (now : Int) (base : Nat) (b : Asset) :
    ∀ d ∈ resolve_dependencies_for_asset fs_read assets uid now base b,
      d.from_asset_id = b.id ∧
      ∃ m, base ≤ m ∧
        m < base + (resolve_dependencies_for_asset fs_read assets uid now base b).length ∧
        d.id = uid m := by
  intro d hd
  by_cases htype : b.asset_type ∈ parseable_types
  · cases hread : fs_read b.absolute_path with
    | none =>
      unfold resolve_dependencies_for_asset at hd
      rw [if_pos htype, hread] at hd
      simp at hd
    | some content =>
      have heq := resolve_deps_eq_build fs_read assets uid now base b content htype hread
      rw [heq] at hd ⊢
      obtain ⟨h1, _, _, ⟨m, hm1, hm2, hm3⟩, _, _⟩ :=
        build_deps_fields assets uid now b _ base d hd
      exact ⟨h1, m, hm1, hm2, hm3⟩
  · unfold resolve_dependencies_for_asset at hd
    rw [if_neg htype] at hd
    simp at hd

/-- The resolver's emitted ids are distinct (injective supply). -/
theorem resolve_deps_ids_nodup (fs_read : String → Option String) (assets : List Asset)
    (uid : Nat → String) (now : Int) (base : Nat) (b : Asset)
    (huid : ∀ m n, uid m = uid n → m = n) :
    ((resolve_dependencies_for_asset fs_read assets uid now base b).map
      (fun d => d.id)).Nodup := by
  unfold resolve_dependencies_for_asset
  split
  · split
    · simp
    · exact build_deps_ids_nodup assets uid now b huid _ base
  · simp

/-- Under the freshness assumptions, one step of the resolve-all fold is
delete-then-append. -/
theorem resolve_asset_step_eq (fs_read : String → Option String) (assets : List Asset)
    (uid : Nat → String) (now : Int) (deps0 : List Dependency)
    (huid : ∀ m n, uid m = uid n → m = n)
    (hfresh : ∀ n, ∀ d ∈ deps0, d.id ≠ uid n)
    (st : List Dependency × Nat) (b : Asset) (hok : ids_ok deps0 uid st) :
    resolve_asset_step fs_read assets uid now st b =
      (delete_dependencies_for_asset st.1 b.id ++
        resolve_dependencies_for_asset fs_read assets uid now st.2 b,
       st.2 + (resolve_dependencies_for_asset fs_read assets uid now st.2 b).length) := by
  have hpw : ∀ d ∈ resolve_dependencies_for_asset fs_read assets uid now st.2 b,
      ∀ e ∈ delete_dependencies_for_asset st.1 b.id, e.id ≠ d.id := by
    intro d hd e he
    obtain ⟨_, m, hm1, _, hm3⟩ := resolve_deps_mem fs_read assets uid now st.2 b d hd
    have he' : e ∈ st.1 := (List.mem_filter.mp he).1
    rcases hok e he' with h | ⟨m', hm', he2⟩
    · rw [hm3]
      rcases List.mem_map.mp h with ⟨e0, he0, hid⟩
      rw [← hid]
      exact hfresh m e0 he0
    · rw [hm3, he2]
      intro heq
      have := huid m' m heq
      omega
  simp only [resolve_asset_step]
  rw [foldl_insert_fresh _ _ hpw
    (resolve_deps_ids_nodup fs_read assets uid now st.2 b huid)]

/-- The fold step preserves the id invariant. -/
theorem ids_ok_step (fs_read : String → Option String) (assets : List Asset)
    (uid : Nat → String) (now : Int) (deps0 : List Dependency)
    (huid : ∀ m n, uid m = uid n → m = n)
    (hfresh : ∀ n, ∀ d ∈ deps0, d.id ≠ uid n)
    (st : List Dependency × Nat) (b : Asset) (hok : ids_ok deps0 uid st) :
    ids_ok deps0 uid (resolve_asset_step fs_read assets uid now st b) := by
  rw [resolve_asset_step_eq fs_read assets uid now deps0 huid hfresh st b hok]
  intro d hd
  rcases List.mem_append.mp hd with h | h
  · rcases hok d (List.mem_filter.mp h).1 with h2 | ⟨m, hm, he⟩
    · exact Or.inl h2
    · exact Or.inr ⟨m, by simp; omega, he⟩
  · obtain ⟨_, m, hm1, hm2, hm3⟩ := resolve_deps_mem fs_read assets uid now st.2 b d h
    exact Or.inr ⟨m, by simp; omega, hm3⟩

/-- The id invariant holds through the whole fold. -/
theorem ids_ok_foldl (fs_read : String → Option String) (assets : List Asset)
    (uid : Nat → String) (now : Int) (deps0 : List Dependency)
    (huid : ∀ m n, uid m = uid n → m = n)
    (hfresh : ∀ n, ∀ d ∈ deps0, d.id ≠ uid n) :
    ∀ (L : List Asset) (st : List Dependency × Nat), ids_ok deps0 uid st →
      ids_ok deps0 uid (L.foldl (resolve_asset_step fs_read assets uid now) st) := by
  intro L
  induction L with
  | nil => intro st h; exact h
  | cons b rest ih =>
    intro st h
    exact ih _ (ids_ok_step fs_read assets uid now deps0 huid hfresh st b h)

/-- Processing assets other than `a` does not change the set of edges
whose source is `a`. -/
theorem filter_from_preserved (fs_read : String → Option String) (assets : List Asset)
    (uid : Nat → String) (now : Int) (deps0 : List Dependency)
    (huid : ∀ m n, uid m = uid n → m = n)
    (hfresh : ∀ n, ∀ d ∈ deps0, d.id ≠ uid n) (aid : String) :
    ∀ (L : List Asset) (st : List Dependency × Nat), ids_ok deps0 uid st →
      (∀ b ∈ L, b.id ≠ aid) →
      (L.foldl (resolve_asset_step fs_read assets uid now) st).1.filter
        (fun d => d.from_asset_id = aid) =
      st.1.filter (fun d => d.from_asset_id = aid) := by
  intro L
  induction L with
  | nil => intro st _ _; rfl
  | cons b rest ih =>
    intro st hok hne
    have hb : b.id ≠ aid := hne b (by simp)
    rw [List.foldl_cons,
      ih _ (ids_ok_step fs_read assets uid now deps0 huid hfresh st b hok)
        (fun b' hb' => hne b' (List.mem_cons_of_mem _ hb'))]
    rw [resolve_asset_step_eq fs_read assets uid now deps0 huid hfresh st b hok]
    rw [List.filter_append]
    have h1 : (resolve_dependencies_for_asset fs_read assets uid now st.2 b).filter
        (fun d => d.from_asset_id = aid) = [] := by
      apply List.filter_eq_nil_iff.mpr
      intro d hd
      have := (resolve_deps_mem fs_read assets uid now st.2 b d hd).1
      simp [this, hb]
    rw [h1, List.append_nil]
    unfold delete_dependencies_for_asset
    rw [List.filter_filter]
    apply List.filter_congr
    intro d _
    by_cases h : d.from_asset_id = aid
    · have hnb : ¬ d.from_asset_id = b.id := by
        rw [h]
        exact fun he => hb he.symm
      simp [h, hnb]
      exact fun he => hb he.symm
    · simp [h]

/-- After the fold has processed `a` (present once, by primary-key
distinctness), the edges from `a` are exactly one freshly computed batch. -/
theorem foldl_filter_from_eq (fs_read : String → Option String) (assets : List Asset)
    (uid : Nat → String) (now : Int) (deps0 : List Dependency)
    (huid : ∀ m n, uid m = uid n → m = n)
    (hfresh : ∀ n, ∀ d ∈ deps0, d.id ≠ uid n) (a : Asset) :
    ∀ (L : List Asset) (st : List Dependency × Nat), ids_ok deps0 uid st →
      a ∈ L → (L.map (fun b => b.id)).Nodup →
      ∃ k, (L.foldl (resolve_asset_step fs_read assets uid now) st).1.filter
          (fun d => d.from_asset_id = a.id) =
        resolve_dependencies_for_asset fs_read assets uid now k a := by
  intro L
  induction L with
  | nil => intro st _ ha _; simp at ha
  | cons b rest ih =>
    intro st hok haL hnd
    have hok' := ids_ok_step fs_read assets uid now deps0 huid hfresh st b hok
    rcases List.mem_cons.mp haL with hab | harest
    · subst hab
      refine ⟨st.2, ?_⟩
      have hrest_ne : ∀ b' ∈ rest, b'.id ≠ a.id := by
        intro b' hb' he
        have hmem : b'.id ∈ rest.map (fun b => b.id) := List.mem_map.mpr ⟨b', hb', rfl⟩
        rw [he] at hmem
        exact (List.nodup_cons.mp hnd).1 hmem
      rw [List.foldl_cons,
        filter_from_preserved fs_read assets uid now deps0 huid hfresh a.id rest _
          hok' hrest_ne]
      rw [resolve_asset_step_eq fs_read assets uid now deps0 huid hfresh st a hok]
      rw [List.filter_append]
      have h1 : (delete_dependencies_for_asset st.1 a.id).filter
          (fun d => d.from_asset_id = a.id) = [] := by
        apply List.filter_eq_nil_iff.mpr
        intro d hd
        have := (List.mem_filter.mp hd).2
        simp at this ⊢
        exact this
      have h2 : (resolve_dependencies_for_asset fs_read assets uid now st.2 a).filter
          (fun d => d.from_asset_id = a.id) =
          resolve_dependencies_for_asset fs_read assets uid now st.2 a := by
        apply List.filter_eq_self.mpr
        intro d hd
        simp [(resolve_deps_mem fs_read assets uid now st.2 a d hd).1]
      rw [h1, h2, List.nil_append]
    · exact ih _ hok' harest (List.nodup_cons.mp hnd).2

/-- Claim C2: after `resolve_all_for_project`, for every in-scope asset of
the project whose file is readable, each extracted non-self guid has
exactly one outgoing edge, an unresolvable guid still has its edge with a
null target, no edge from the asset targets its own guid, and every edge
from the asset comes from an extracted guid. -/
theorem resolve_all_edges_exact (fs_read : String → Option String) (assets : List Asset)
    (deps0 : List Dependency) (uid : Nat → String) (now : Int) (project_id : String)
    (a : Asset) (content : String)
    (hids : (assets.map (fun b => b.id)).Nodup)
    (huid : ∀ m n, uid m = uid n → m = n)
    (hfresh : ∀ n, ∀ d ∈ deps0, d.id ≠ uid n)
    (ha : a ∈ assets) (hproj : a.project_id = project_id)
    (htype : a.asset_type ∈ parseable_types)
    (hread : fs_read a.absolute_path = some content) :
    (∀ g ∈ extract_guids content, a.unity_guid ≠ some g →
      ((resolve_all_for_project fs_read assets deps0 uid now project_id).1.filter
        (fun d => d.from_asset_id = a.id ∧ d.to_guid = g)).length = 1) ∧
    (∀ g ∈ extract_guids content, a.unity_guid ≠ some g →
      (∀ b ∈ assets, b.project_id = project_id → b.unity_guid ≠ some g) →
      ∀ d ∈ (resolve_all_for_project fs_read assets deps0 uid now project_id).1,
        d.from_asset_id = a.id → d.to_guid = g → d.to_asset_id = none) ∧
    (∀ d ∈ (resolve_all_for_project fs_read assets deps0 uid now project_id).1,
      d.from_asset_id = a.id → a.unity_guid ≠ some d.to_guid) ∧
    (∀ d ∈ (resolve_all_for_project fs_read assets deps0 uid now project_id).1,
      d.from_asset_id = a.id → d.to_guid ∈ extract_guids content) := by
  have haL : a ∈ get_parseable_assets assets project_id := by
    unfold get_parseable_assets
    rw [List.mem_filter]
    exact ⟨ha, by simp [hproj, htype]⟩
  have hndL : ((get_parseable_assets assets project_id).map (fun b => b.id)).Nodup := by
    unfold get_parseable_assets
    exact ((List.filter_sublist assets).map (fun b => b.id)).nodup hids
  obtain ⟨k, hk⟩ := foldl_filter_from_eq fs_read assets uid now deps0 huid hfresh a
    (get_parseable_assets assets project_id) (deps0, 0) (fun d hd => Or.inl
      (List.mem_map.mpr ⟨d, hd, rfl⟩)) haL hndL
  have hbuild : (resolve_all_for_project fs_read assets deps0 uid now project_id).1.filter
      (fun d => d.from_asset_id = a.id) =
      build_deps assets uid now a (extract_guids content) k := by
    unfold resolve_all_for_project
    rw [hk, resolve_deps_eq_build fs_read assets uid now k a content htype hread]
  have hmem_build : ∀ d ∈ (resolve_all_for_project fs_read assets deps0 uid now
      project_id).1, d.from_asset_id = a.id →
      d ∈ build_deps assets uid now a (extract_guids content) k := by
    intro d hd hfrom
    rw [← hbuild]
    rw [List.mem_filter]
    exact ⟨hd, by simpa using hfrom⟩
  refine ⟨?_, ?_, ?_, ?_⟩
  · intro g hg hown
    have hcomp : (resolve_all_for_project fs_read assets deps0 uid now
        project_id).1.filter (fun d => d.from_asset_id = a.id ∧ d.to_guid = g) =
        ((resolve_all_for_project fs_read assets deps0 uid now project_id).1.filter
          (fun d => d.from_asset_id = a.id)).filter (fun d => d.to_guid = g) := by
      rw [List.filter_filter]
      apply List.filter_congr
      intro d _
      simp [Bool.and_comm]
    rw [hcomp, hbuild]
    exact build_deps_filter_count_one assets uid now a g (extract_guids content) k
      (List.nodup_dedup _) hg hown
  · intro g hg hown hnores d hd hfrom hguid
    obtain ⟨_, _, _, _, h5, _⟩ :=
      build_deps_fields assets uid now a (extract_guids content) k d
        (hmem_build d hd hfrom)
    rw [h5, hguid]
    have : get_asset_by_guid assets a.project_id g = none := by
      unfold get_asset_by_guid
      apply List.find?_eq_none.mpr
      intro b hb
      simp only [decide_eq_true_eq]
      rintro ⟨hbp, hbg⟩
      exact hnores b hb (hproj ▸ hbp) hbg
    rw [this]
    rfl
  · intro d hd hfrom
    obtain ⟨_, _, h3, _, _, _⟩ :=
      build_deps_fields assets uid now a (extract_guids content) k d
        (hmem_build d hd hfrom)
    exact h3
  · intro d hd hfrom
    obtain ⟨_, h2, _, _, _, _⟩ :=
      build_deps_fields assets uid now a (extract_guids content) k d
        (hmem_build d hd hfrom)
    exact h2

/-- Witness for C2 at a concrete input: a material referencing the
texture's guid; after resolve-all there is exactly one edge from the
material with that guid. -/
theorem resolve_all_edges_exact_witness :
    c2guid ∈ extract_guids c2content ∧
    ((resolve_all_for_project c2fs c2assets [] c2uid 0 "p").1.filter
      (fun d => d.from_asset_id = matAsset.id ∧ d.to_guid = c2guid)).length = 1 :=
  ⟨by decide,
   (resolve_all_edges_exact c2fs c2assets [] c2uid 0 "p" matAsset c2content
      (by decide)
      (fun m n h => by
        have h2 := congrArg (fun s => s.data.length) h
        simpa [c2uid] using h2)
      (by simp)
      (by decide) rfl (by decide) (by decide)).1 c2guid (by decide) (by decide)⟩

end Scythe
